import Mathlib

/-!
Verification development for the seqdd download-execution engine.

Shallow embedding of the Python source under `src/seqdd/`:
* `seqdd/downloaders/download.py` — interleaved job submission,
* `seqdd/utils/scheduler.py` — `JobManager`, `Job`, `FunctionJob`, `CmdLineJob`,
* `seqdd/register/sources/__init__.py` — `DataSource` pacing,
* `seqdd/register/sources/ena.py` — `ENA.move_and_clean`,
  `ENA.valid_accessions_on_API`, `ENA.get_ena_ftp_url`,
* `seqdd/__main__.py` — `main` dispatch and exit codes.

Pure logic is translated into computable Lean functions; stateful code is
modelled by explicit state passing; wall-clock time is an explicit rational
parameter; the OS process of a job is a small state machine whose exits are
supplied by an environment oracle.
-/

set_option autoImplicit false
set_option linter.unusedVariables false

namespace Seqdd

/-! ## Definitions -/

/-! ### Interleaved submission (`DownloadManager.download_to`,
`src/seqdd/downloaders/download.py` lines 73-80)

The Python loop is

    while len(ncbi_jobs) + len(sra_jobs) + len(wget_jobs) > 0:
        if len(ncbi_jobs) > 0: manager.add_process(ncbi_jobs.pop(0))
        if len(sra_jobs) > 0: manager.add_process(sra_jobs.pop(0))
        if len(wget_jobs) > 0: manager.add_process(wget_jobs.pop(0))

`interleave ns ss ws` is the list of jobs in the order in which the loop
submits them to the scheduler. -/
/-- One source container of `download_to`, used to tag jobs. -/
inductive Container where
  | ncbi
  | sra
  | wget
deriving DecidableEq, Repr

/-- Submission order produced by the `while` loop of `download_to`:
each round pops the head of every non-empty container list, in the fixed
order ncbi, sra, wget, until all three lists are empty. -/
def interleave {α : Type} : List α → List α → List α → List α
  | [], [], [] => []
  | [], [], z :: zs => z :: interleave [] [] zs
  | [], y :: ys, [] => y :: interleave [] ys []
  | [], y :: ys, z :: zs => y :: z :: interleave [] ys zs
  | x :: xs, [], [] => x :: interleave xs [] []
  | x :: xs, [], z :: zs => x :: z :: interleave xs [] zs
  | x :: xs, y :: ys, [] => x :: y :: interleave xs ys []
  | x :: xs, y :: ys, z :: zs => x :: y :: z :: interleave xs ys zs
termination_by xs ys zs => xs.length + ys.length + zs.length

/-- Tag every job of a container list with its container of origin. -/
def tagged (c : Container) (l : List Nat) : List (Container × Nat) :=
  l.map (fun a => (c, a))

/-! ### Job constructors (`src/seqdd/utils/scheduler.py`)

`Job.__init__` (lines 169-190) resolves the `name` and `log_file`
arguments; `FunctionJob.__init__` (lines 232-247) and
`CmdLineJob.__init__` (lines 328-341) resolve defaults and then delegate
to `Job.__init__`.  `Job.ID` is passed in explicitly as `id`. -/
/-- The `name` and `log_file` fields set by `Job.__init__`. -/
structure JobNames where
  name : String
  logFile : String
deriving DecidableEq, Repr

/-- Embedding of `Job.__init__` lines 179-180:
`self.name = name if name is not None else f'Job_{Job.ID}'` and
`self.log_file = log_file if log_file is not None else f'{self.name}.log'`. -/
def jobInitNames (id : Nat) (name logFile : Option String) : JobNames :=
  let n := name.getD ("Job_" ++ toString id)
  { name := n, logFile := logFile.getD (n ++ ".log") }

/-- Embedding of `FunctionJob.__init__` lines 242-244: the local
`log_file = log_file if log_file is not None else f'{name}.log'` is
computed but the call to `super().__init__` passes the literal
`f'{name}.log'` instead of that local. -/
def functionJobInitNames (id : Nat) (name logFile : Option String) :
    JobNames :=
  let n := name.getD ("FunctionJob_" ++ toString id)
  jobInitNames id (some n) (some (n ++ ".log"))

/-- Embedding of `CmdLineJob.__init__` lines 338-340: the resolved `log_file` local is
passed through to `Job.__init__`. -/
def cmdLineJobInitNames (id : Nat) (name logFile : Option String) :
    JobNames :=
  let n := name.getD ("CmdLineJob_" ++ toString id)
  let lf := logFile.getD (n ++ ".log")
  jobInitNames id (some n) (some lf)

/-- Last path component, as `os.path.basename` on a plain path. -/
def pathBasename (p : String) : String :=
  (p.splitOn "/").getLastD p

/-- Embedding of `JobManager.add_job` lines 123-127: when the manager has a
`log_folder`, the job's log file is replaced by
`path.join(log_folder, path.basename(log_file))`. -/
def addJobLogFile (logFolder : Option String) (logFile : String) : String :=
  match logFolder with
  | none => logFile
  | some d => d ++ "/" ++ pathBasename logFile

/-! ### Pacing (`DataSource`, `src/seqdd/register/sources/__init__.py`
lines 53-67)

`source_delay_ready` is

    locked = self.mutex.acquire(blocking=False)
    ready = False
    if locked:
        ready = time.time() - self.last_query > self.min_delay
        if ready:
            self.last_query = time.time()
        self.mutex.release()
    return ready

A call is modelled with the externally observed mutex state (`extLocked`,
true when another thread holds the mutex so the non-blocking acquire
fails) and the two `time.time()` reads `t1 ≤ t2`. -/
/-- Mutable pacing state of a `DataSource`. -/
structure Pacer where
  minDelay : ℚ
  lastQuery : ℚ
deriving DecidableEq, Repr

/-- One call of the source: mutex availability and the two clock reads. -/
structure PacerCall where
  extLocked : Bool
  t1 : ℚ
  t2 : ℚ
deriving DecidableEq, Repr

/-- One evaluation of `DataSource.source_delay_ready`. -/
def source_delay_ready (p : Pacer) (c : PacerCall) : Bool × Pacer :=
  if c.extLocked then (false, p)
  else if p.minDelay < c.t1 - p.lastQuery then
    (true, { p with lastQuery := c.t2 })
  else (false, p)

/-- Results and final state of a sequence of `source_delay_ready` calls. -/
def pacerRun (p : Pacer) : List PacerCall → List Bool × Pacer
  | [] => ([], p)
  | c :: cs =>
    let r := source_delay_ready p c
    let rest := pacerRun r.2 cs
    (r.1 :: rest.1, rest.2)

/-- The calls happen in chronological order, starting no earlier than `t`. -/
def Chrono : ℚ → List PacerCall → Prop
  | _, [] => True
  | t, c :: cs => t ≤ c.t1 ∧ c.t1 ≤ c.t2 ∧ Chrono c.t2 cs

instance instDecidableChrono (t : ℚ) (cs : List PacerCall) :
    Decidable (Chrono t cs) := by
  induction cs generalizing t with
  | nil => exact .isTrue trivial
  | cons c cs ih =>
    have := ih c.t2
    unfold Chrono
    infer_instance

/-! ### `ENA.move_and_clean` (`src/seqdd/register/sources/ena.py`
lines 199-231)

    if md5s is not None:
        for filename, md5 in md5s.items():
            ... md5_hash = md5sum of the staged file ...
            if md5 != md5_hash:
                self.logger.error(...)
                rmtree(accession_dir)
                return
    outdir = path.join(outdir, path.basename(accession_dir))
    makedirs(outdir, exist_ok=True)
    filenames = listdir(accession_dir) if md5s is None else md5s.keys()
    for filename in filenames:
        move(...)
    rmtree(accession_dir)

`actualMd5` gives the md5sum of each staged file, `dirFiles` is the
`listdir` of the staging directory. -/
/-- Observable outcome of one `move_and_clean` call. -/
structure MoveOutcome where
  /-- files moved into the output directory, in move order -/
  movedFiles : List String
  /-- whether `rmtree(accession_dir)` ran before returning -/
  stagingRemoved : Bool
  /-- whether an exception escaped the call -/
  raised : Bool
deriving DecidableEq, Repr

/-- Embedding of `ENA.move_and_clean`. -/
def move_and_clean (md5s : Option (List (String × String)))
    (actualMd5 : String → String) (dirFiles : List String) : MoveOutcome :=
  match md5s with
  | some checks =>
    match checks.find? (fun fp => !(actualMd5 fp.1 == fp.2)) with
    | some _ =>
      { movedFiles := [], stagingRemoved := true, raised := false }
    | none =>
      { movedFiles := checks.map (fun fp => fp.1), stagingRemoved := true,
        raised := false }
  | none =>
    { movedFiles := dirFiles, stagingRemoved := true, raised := false }

/-- Embedding of `FunctionJob.wrapping_function` (`scheduler.py` lines 250-265) re-raises
any exception of the wrapped callable, so the worker process exits non-zero
exactly when the callable raised; otherwise it exits 0. -/
def functionJobExit (raised : Bool) : Int :=
  if raised then 1 else 0

/-! ### Mutex pairing of the paced ENA query methods
(`src/seqdd/register/sources/ena.py` lines 263-296 and 318-353)

`wait_my_turn` (lines 73-80) busy-waits on `ena_delay_ready`, which can
only report ready after acquiring the mutex with `acquire(blocking=False)`;
once it returns, the caller holds the mutex.  If the caller enters
`wait_my_turn` while it already holds the mutex from an earlier leak,
the non-blocking acquire fails forever and the method never returns
(modelled as `none`).

`valid_accessions_on_API` handles each slice of `query_size` accessions:

    self.wait_my_turn()
    response = subprocess.run(['curl', query], ...)
    if response.returncode != 0:
        self.logger.error(...)
        continue                      # mutex NOT released
    self.last_ena_query = time.time()
    self.mutex.release()
    ... 'ErrorDetails' check happens after the release ...

`get_ena_ftp_url` releases the mutex immediately after each of its two
curl calls, before inspecting the return code. -/
/-- Environment of one batch of `valid_accessions_on_API`: did curl exit 0,
and did the response contain an ErrorDetails marker. -/
structure ApiBatch where
  curlOk : Bool
  errorDetails : Bool
deriving DecidableEq, Repr

/-- Mutex state after one loop iteration of `valid_accessions_on_API`,
given the mutex state at its start; `none` when `wait_my_turn` never
returns. -/
def apiBatchMutex (held : Bool) (b : ApiBatch) : Option Bool :=
  if held then none
  else if b.curlOk then some false
  else some true

/-- Mutex state after a whole `valid_accessions_on_API` call processing
its batches in order. -/
def valid_accessions_on_API_mutex (held : Bool) :
    List ApiBatch → Option Bool
  | [] => some held
  | b :: bs =>
    match apiBatchMutex held b with
    | none => none
    | some h => valid_accessions_on_API_mutex h bs

/-- Environment of one `get_ena_ftp_url` call: exit status of the first
curl, whether a fastq url was found in the XML, exit status of the second
curl. -/
structure FtpEnv where
  xmlOk : Bool
  hasFastqUrl : Bool
  reportOk : Bool
deriving DecidableEq, Repr

/-- Mutex state after a `get_ena_ftp_url` call (lines 318-353): the
release on lines 327-328 and 347-349 is unconditional, before any
return-code check, so every control path ends with the mutex free. -/
def get_ena_ftp_url_mutex (held : Bool) (env : FtpEnv) : Option Bool :=
  if held then none
  else
    -- first query: wait_my_turn; curl; last_query update; release
    if env.xmlOk = false then some false
    else if env.hasFastqUrl = false then some false
    else
      -- second query: wait_my_turn; curl; last_query update; release
      some false

/-! ### `main` dispatch (`src/seqdd/__main__.py` lines 300-334)

    system = platform.system()
    if system == 'Windows':
        print(...); exit(3)
    ...
    if args.cmd != 'init':
        if not os.path.isdir(args.register_location):
            if args.cmd == 'add':
                on_init(args, logger=logger)
            else:
                print('No data register found...'); exit(1)
    cmd_to_apply = globals()[f"on_..."]
    cmd_to_apply(args, logger=logger)

A run that falls through the checks executes the command function and the
interpreter exits with status 0 when it returns normally; job failures
inside `download_to` are only logged and never raised (`JobManager.run`
logs ERROR lines and cancels; `download_to` merely polls
`remaining_jobs`), so they cannot change the exit status. -/
/-- Result of the `main` entry point before the command function runs. -/
inductive MainOutcome where
  /-- `exit(n)` was called -/
  | exit (code : Nat)
  /-- control reached `cmd_to_apply`; the flag records whether the
  register was auto-initialised first (the `add` branch) -/
  | completed (ranInit : Bool)
deriving DecidableEq, Repr

/-- Embedding of the platform check and register check of `main`. -/
def mainDispatch (system cmd : String) (registerExists : Bool) :
    MainOutcome :=
  if system = "Windows" then .exit 3
  else if cmd ≠ "init" ∧ registerExists = false then
    if cmd = "add" then .completed true
    else .exit 1
  else .completed false

/-- Process exit status once `main` returns normally: an explicit `exit n`
gives `n`; falling through to a command function that returns gives 0. -/
def mainExitCode : MainOutcome → Nat
  | .exit n => n
  | .completed _ => 0

/-! ### Scheduler (`JobManager` and `Job`,
`src/seqdd/utils/scheduler.py`)

State of the job manager and of every job, as a transition system.  The
OS decides when a worker exits and with which code; one scheduler tick
(`JobManager.run` loop body, lines 49-92) therefore takes an `Oracle`
carrying, for each running job, whether its worker has exited since the
last tick (and the exit code), together with the result of each job's
`can_start()` predicate at this tick.  `start()` calls are counted in
`startCount` as pure instrumentation; no behaviour depends on it. -/
/-- Concrete `Job` subclass. -/
inductive JobKind where
  | funcJob
  | cmdJob
deriving DecidableEq, Repr

/-- The OS-level worker of a job. `FunctionJob.__init__` allocates its
`Process` immediately (`created`); a `CmdLineJob` has `process = None`
until `start()` (`noProc`). -/
inductive ProcState where
  | noProc
  | created
  | runningProc
  | exited (code : Int)
deriving DecidableEq, Repr

/-- Per-job mutable state. -/
structure JobState where
  parents : List Nat
  kind : JobKind
  isOver : Bool
  proc : ProcState
  startCount : Nat
deriving DecidableEq, Repr

/-- Worker state fresh out of `__init__`. -/
def initProc : JobKind → ProcState
  | .funcJob => .created
  | .cmdJob => .noProc

/-- A job as constructed (before submission). -/
def initJob (parents : List Nat) (kind : JobKind) : JobState :=
  { parents := parents, kind := kind, isOver := false,
    proc := initProc kind, startCount := 0 }

/-- Embedding of `get_returncode` (lines 290-297 and 378-387): `None` while the worker
has not started or is still alive, the exit code afterwards. -/
def getReturncode (j : JobState) : Option Int :=
  match j.proc with
  | .exited c => some c
  | _ => none

/-- Embedding of `stop` (lines 275-288 and 352-363): sets `is_over`, kills a live
worker (a SIGKILL death reports exit code -9); a worker that never
started or already exited keeps its state. -/
def stopJob (j : JobState) : JobState :=
  { j with isOver := true,
           proc := match j.proc with
                   | .runningProc => .exited (-9)
                   | p => p }

/-- Embedding of `start` (lines 268-272 and 344-349): spawn the worker. -/
def startJob (j : JobState) : JobState :=
  { j with proc := .runningProc, startCount := j.startCount + 1 }

/-- Embedding of `Job.is_ready` (lines 196-208). -/
def isReady (jobs : Nat → JobState) (canStart : Nat → Bool)
    (j : Nat) : Bool :=
  if (jobs j).isOver then false
  else if !((jobs j).parents.all (fun p => (jobs p).isOver)) then false
  else canStart j

/-- Embedding of `JobManager` state (lines 17-36). -/
structure Sched where
  maxProcess : Nat
  nextId : Nat
  jobs : Nat → JobState
  waiting : List Nat
  running : List Nat
  deps : Nat → List Nat
  processes : List Nat

/-- Update one job's state. -/
def setJob (s : Sched) (i : Nat) (j : JobState) : Sched :=
  { s with jobs := fun k => if k = i then j else s.jobs k }

/-- A job handed to `add_job`: its parents and concrete class. -/
structure JobSpec where
  parents : List Nat
  kind : JobKind
deriving Repr

/-- Embedding of `JobManager.add_job` (lines 118-137): register the job under a fresh
id, append it to each parent's `dependancies` entry (once per occurrence
of the parent), and queue it on `waiting` and `processes`. -/
def addJob (s : Sched) (spec : JobSpec) : Sched :=
  let i := s.nextId
  { s with
    nextId := i + 1,
    jobs := fun k => if k = i then initJob spec.parents spec.kind
                     else s.jobs k,
    deps := fun p => s.deps p ++ List.replicate (spec.parents.count p) i,
    waiting := s.waiting ++ [i],
    processes := s.processes ++ [i] }

/-- Embedding of `JobManager.cancel_job` (lines 100-116): cancel every registered
dependant first, then drop the job from `running` and `waiting` and call
`stop()` on it.  The Python recursion is unbounded; `fuel` bounds it here
and is always instantiated large enough to exhaust every chain. -/
def cancelJob : Nat → Nat → Sched → Sched
  | 0, _, s => s
  | fuel + 1, j, s =>
    let s1 := (s.deps j).foldl (fun st d => cancelJob fuel d st) s
    { s1 with
      running := s1.running.erase j,
      waiting := s1.waiting.erase j,
      jobs := fun k => if k = j then stopJob (s1.jobs k) else s1.jobs k }

/-- Environment of one scheduler tick. -/
structure Oracle where
  exits : Nat → Option Int
  canStart : Nat → Bool

/-- First reap loop (lines 51-54, with the `is_alive` side effects of
lines 307-316 and 366-375): sweep `running` in order; a job whose worker
has exited gets `is_over = True` and its exit code recorded, and is
collected for removal. -/
def sweepStep (o : Oracle) (acc : Sched × List Nat) (j : Nat) :
    Sched × List Nat :=
  match (acc.1.jobs j).proc with
  | .runningProc =>
    match o.exits j with
    | some c =>
      (setJob acc.1 j
        { acc.1.jobs j with isOver := true, proc := .exited c },
       acc.2 ++ [j])
    | none => acc
  | .exited _ =>
    (setJob acc.1 j { acc.1.jobs j with isOver := true }, acc.2 ++ [j])
  | _ => acc

def reapSweep (o : Oracle) (s : Sched) : Sched × List Nat :=
  s.running.foldl (sweepStep o) (s, [])

/-- One step of the second reap loop (lines 57-70): remove the dead job
from `running`; a non-zero (or undefined) return code triggers
`cancel_job`. -/
def handleStep (fuel : Nat) (st : Sched) (j : Nat) : Sched :=
  if getReturncode (st.jobs j) = some 0 then
    { st with running := st.running.erase j }
  else cancelJob fuel j { st with running := st.running.erase j }

/-- Second reap loop (lines 57-70) over the dead jobs in sweep order. -/
def reapHandle (fuel : Nat) (s : Sched) (dead : List Nat) : Sched :=
  dead.foldl (handleStep fuel) s

/-- Promotion scan (lines 72-87): walk `waiting` in order; stop as soon
as `running` is full; start every ready job, collecting it for removal
from `waiting`. -/
def promoteScan (o : Oracle) (s : Sched) :
    List Nat → Sched × List Nat
  | [] => (s, [])
  | j :: rest =>
    if s.maxProcess ≤ s.running.length then (s, [])
    else if isReady s.jobs o.canStart j then
      let s1 := setJob s j (startJob (s.jobs j))
      let s2 := { s1 with running := s1.running ++ [j] }
      let r := promoteScan o s2 rest
      (r.1, j :: r.2)
    else promoteScan o s rest

/-- One iteration of the `JobManager.run` loop (lines 49-92): reap, then
promote, then remove the promoted jobs from `waiting` (lines 89-90). -/
def tick (fuel : Nat) (o : Oracle) (s : Sched) : Sched :=
  let r1 := reapSweep o s
  let s2 := reapHandle fuel r1.1 r1.2
  let r3 := promoteScan o s2 s2.waiting
  { r3.1 with waiting := r3.2.foldl (fun w j => w.erase j) r3.1.waiting }

/-- Externally visible events of a `JobManager`. -/
inductive Ev where
  | add (spec : JobSpec)
  | tick (o : Oracle)

/-- Fresh `JobManager` (lines 17-36). -/
def initSched (maxP : Nat) : Sched :=
  { maxProcess := maxP, nextId := 0, jobs := fun _ => initJob [] .cmdJob,
    waiting := [], running := [], deps := fun _ => [], processes := [] }

/-- Apply one event; a tick gets enough cancel fuel for every chain. -/
def stepEv (s : Sched) : Ev → Sched
  | .add spec => addJob s spec
  | .tick o => tick (s.nextId + 1) o s

/-- State after a sequence of events from a fresh manager. -/
def runTrace (maxP : Nat) (evs : List Ev) : Sched :=
  evs.foldl stepEv (initSched maxP)

/-- States reachable by any interleaving of submissions and ticks. -/
inductive Reachable (maxP : Nat) : Sched → Prop where
  | init : Reachable maxP (initSched maxP)
  | add (s : Sched) (spec : JobSpec) :
      Reachable maxP s → Reachable maxP (addJob s spec)
  | tick (s : Sched) (o : Oracle) :
      Reachable maxP s → Reachable maxP (tick (s.nextId + 1) o s)

/-- Transitive registered-dependant relation, over a fixed `dependancies`
map (reflexive: a job is its own descendant). -/
inductive DescOf (deps : Nat → List Nat) : Nat → Nat → Prop where
  | refl (j : Nat) : DescOf deps j j
  | step (j c k : Nat) : c ∈ deps j → DescOf deps c k → DescOf deps j k

/-- What `cancel_job` can never change or can only shrink. -/
structure CancelPres (s s' : Sched) : Prop where
  deps_eq : s'.deps = s.deps
  nextId_eq : s'.nextId = s.nextId
  max_eq : s'.maxProcess = s.maxProcess
  procs_eq : s'.processes = s.processes
  waiting_sub : s'.waiting.Sublist s.waiting
  running_sub : s'.running.Sublist s.running
  parents_eq : ∀ q, (s'.jobs q).parents = (s.jobs q).parents
  count_eq : ∀ q, (s'.jobs q).startCount = (s.jobs q).startCount
  kind_eq : ∀ q, (s'.jobs q).kind = (s.jobs q).kind
  over_mono : ∀ q, (s.jobs q).isOver = true → (s'.jobs q).isOver = true
  exited_stable : ∀ q c, (s.jobs q).proc = .exited c →
    (s'.jobs q).proc = .exited c

/-- The children fold inside one `cancel_job` unfolding. -/
def cancelFold (fuel : Nat) (s : Sched) (l : List Nat) : Sched :=
  l.foldl (fun st d => cancelJob fuel d st) s

/-- What the reap sweep over jobs drawn from `l` does to the state. -/
structure SweepSpec (l : List Nat) (st : Sched) (ds : List Nat)
    (r : Sched × List Nat) : Prop where
  running_eq : r.1.running = st.running
  waiting_eq : r.1.waiting = st.waiting
  deps_eq : r.1.deps = st.deps
  nextId_eq : r.1.nextId = st.nextId
  max_eq : r.1.maxProcess = st.maxProcess
  procs_eq : r.1.processes = st.processes
  parents_eq : ∀ q, (r.1.jobs q).parents = (st.jobs q).parents
  count_eq : ∀ q, (r.1.jobs q).startCount = (st.jobs q).startCount
  kind_eq : ∀ q, (r.1.jobs q).kind = (st.jobs q).kind
  exited_stable : ∀ q c, (st.jobs q).proc = .exited c →
    (r.1.jobs q).proc = .exited c
  over_mono : ∀ q, (st.jobs q).isOver = true → (r.1.jobs q).isOver = true
  over_src : ∀ q, (r.1.jobs q).isOver = true →
    (st.jobs q).isOver = true ∨ q ∈ r.2
  dead_ext : ∀ q ∈ ds, q ∈ r.2
  dead_src : ∀ q ∈ r.2, q ∈ ds ∨ q ∈ l
  untouched : ∀ q, q ∉ r.2 → r.1.jobs q = st.jobs q
  dead_state : ∀ q ∈ r.2, q ∈ ds ∨ ((r.1.jobs q).isOver = true
    ∧ ∃ c, (r.1.jobs q).proc = .exited c)

/-- What one promotion scan does to the state: `r.2` is the list of
promoted (started) jobs. -/
structure PromSpec (s : Sched) (r : Sched × List Nat) : Prop where
  waiting_eq : r.1.waiting = s.waiting
  deps_eq : r.1.deps = s.deps
  nextId_eq : r.1.nextId = s.nextId
  max_eq : r.1.maxProcess = s.maxProcess
  procs_eq : r.1.processes = s.processes
  running_eq : r.1.running = s.running ++ r.2
  untouched : ∀ q, q ∉ r.2 → r.1.jobs q = s.jobs q
  started : ∀ q ∈ r.2, r.1.jobs q = startJob (s.jobs q)
  ready_over : ∀ q ∈ r.2, (s.jobs q).isOver = false
  ready_parents : ∀ q ∈ r.2, ∀ p ∈ (s.jobs q).parents,
    (s.jobs p).isOver = true

/-- State after the reap phase of one tick. -/
def tickMid (fuel : Nat) (o : Oracle) (s : Sched) : Sched :=
  reapHandle fuel (reapSweep o s).1 (reapSweep o s).2

/-- Invariants behind the parallelism cap and single-start guarantees. -/
structure SafeInv (s : Sched) : Prop where
  wStart : ∀ j ∈ s.waiting, (s.jobs j).startCount = 0
  once : ∀ j, (s.jobs j).startCount ≤ 1
  wNodup : s.waiting.Nodup
  wLt : ∀ j ∈ s.waiting, j < s.nextId
  rLt : ∀ j ∈ s.running, j < s.nextId
  cap : s.running.length ≤ s.maxProcess

/-- Invariants of a single submission wave: registered dependants are
complete and increasing, and every started job had all parents finished
with exit code 0. -/
structure WaveInv (s : Sched) : Prop where
  d1 : ∀ j p, p ∈ (s.jobs j).parents → j ∈ s.deps p
  d2 : ∀ p c, c ∈ s.deps p → p < c ∧ c < s.nextId
  wNodup : s.waiting.Nodup
  wLt : ∀ j ∈ s.waiting, j < s.nextId
  rLt : ∀ j ∈ s.running, j < s.nextId
  f1 : ∀ j, 1 ≤ (s.jobs j).startCount → ∀ p ∈ (s.jobs j).parents,
    (s.jobs p).isOver = true ∧ getReturncode (s.jobs p) = some 0
  f2 : ∀ k ∈ s.waiting, ∀ p ∈ (s.jobs k).parents,
    (s.jobs p).isOver = true → getReturncode (s.jobs p) = some 0

/-- Invariants during the submission phase: no job is over or started. -/
structure AddInv (s : Sched) : Prop where
  d1 : ∀ j p, p ∈ (s.jobs j).parents → j ∈ s.deps p
  d2 : ∀ p c, c ∈ s.deps p → p < c ∧ c < s.nextId
  wNodup : s.waiting.Nodup
  wLt : ∀ j ∈ s.waiting, j < s.nextId
  rLt : ∀ j ∈ s.running, j < s.nextId
  notOver : ∀ j, (s.jobs j).isOver = false
  count0 : ∀ j, (s.jobs j).startCount = 0

/-- The `add_job` calls of one submission wave, in order. -/
def addPhase (maxP : Nat) (specs : List JobSpec) : Sched :=
  specs.foldl addJob (initSched maxP)

/-- Scheduler-loop iterations after the submission wave. -/
def tickPhase (os : List Oracle) (s : Sched) : Sched :=
  os.foldl (fun st o => tick (st.nextId + 1) o st) s

/-- Well-formed submission: each job's parents were submitted earlier
(`n` is the id the next submission will get). -/
def SpecsWf : Nat → List JobSpec → Prop
  | _, [] => True
  | n, spec :: rest => (∀ p ∈ spec.parents, p < n) ∧ SpecsWf (n + 1) rest

instance instDecidableSpecsWf : ∀ (n : Nat) (specs : List JobSpec),
    Decidable (SpecsWf n specs)
  | _, [] => .isTrue trivial
  | n, spec :: rest =>
    have : Decidable (SpecsWf (n + 1) rest) :=
      instDecidableSpecsWf (n + 1) rest
    by unfold SpecsWf; infer_instance

/-- Oracle of a tick where no worker exits and every `can_start` allows. -/
def oracleAll : Oracle := { exits := fun _ => none, canStart := fun _ => true }

/-- Oracle of a tick where exactly job `j` has exited with code `c`. -/
def oracleExit (j : Nat) (c : Int) : Oracle :=
  { exits := fun k => if k = j then some c else none,
    canStart := fun _ => true }

/-- Submission of a parent, a run in which it fails, then submission of
its child: the race of `download_to`, which starts the scheduler thread
before submitting. -/
def evsLateChild : List Ev :=
  [.add { parents := [], kind := .cmdJob },
   .tick oracleAll,
   .tick (oracleExit 0 1),
   .add { parents := [0], kind := .cmdJob },
   .tick oracleAll]

/-- Submission wave of a parent and its child. -/
def specsWave : List JobSpec :=
  [{ parents := [], kind := .cmdJob }, { parents := [0], kind := .cmdJob }]

/-- Ticks in which the parent runs, exits 0, and the child is promoted. -/
def osWave : List Oracle := [oracleAll, oracleExit 0 0, oracleAll]

/-- Parent and child submitted up front; the parent starts, then dies
with code 2, so the scheduler cancels the never-started child. -/
def evsCancelWave : List Ev :=
  [.add { parents := [], kind := .funcJob },
   .add { parents := [0], kind := .funcJob },
   .tick oracleAll,
   .tick (oracleExit 0 2)]

/-- Submissions and one tick leaving job 0 running and job 1 waiting. -/
def evsPreCancel : List Ev :=
  [.add { parents := [], kind := .funcJob },
   .add { parents := [0], kind := .funcJob },
   .tick oracleAll]

/-- Two independent jobs submitted with `max_process = 1`, then one
tick: only one of them may be promoted. -/
def capDemo : Sched :=
  stepEv (stepEv (stepEv (initSched 1)
    (.add { parents := [], kind := .cmdJob }))
    (.add { parents := [], kind := .cmdJob })) (.tick oracleAll)

/-- One job submitted and two ticks: started once, never restarted. -/
def onceDemo : Sched :=
  stepEv (stepEv (stepEv (initSched 2)
    (.add { parents := [], kind := .cmdJob })) (.tick oracleAll))
    (.tick oracleAll)

/-! ## Theorems -/

theorem interleave_count {α : Type} [DecidableEq α] (a : α)
    (xs ys zs : List α) :
    (interleave xs ys zs).count a = xs.count a + ys.count a + zs.count a := by
  induction xs, ys, zs using interleave.induct with
  | case1 => simp [interleave]
  | case2 z zs ih => rw [interleave]; simp [List.count_cons, ih]
  | case3 y ys ih => rw [interleave]; simp [List.count_cons, ih]
  | case4 y ys z zs ih =>
    rw [interleave]; simp [List.count_cons, ih]; omega
  | case5 x xs ih => rw [interleave]; simp [List.count_cons, ih]
  | case6 x xs z zs ih =>
    rw [interleave]; simp [List.count_cons, ih]; omega
  | case7 x xs y ys ih =>
    rw [interleave]; simp [List.count_cons, ih]; omega
  | case8 x xs y ys z zs ih =>
    rw [interleave]; simp [List.count_cons, ih]; omega

theorem interleave_perm {α : Type} [DecidableEq α] (xs ys zs : List α) :
    (interleave xs ys zs).Perm (xs ++ ys ++ zs) := by
  refine List.perm_iff_count.mpr (fun a => ?_)
  rw [interleave_count, List.count_append, List.count_append]

theorem interleave_sublist_left {α : Type} (xs ys zs : List α) :
    xs.Sublist (interleave xs ys zs) := by
  induction xs, ys, zs using interleave.induct with
  | case1 => rw [interleave]
  | case2 z zs ih => rw [interleave]; exact ih.cons _
  | case3 y ys ih => rw [interleave]; exact ih.cons _
  | case4 y ys z zs ih => rw [interleave]; exact (ih.cons _).cons _
  | case5 x xs ih => rw [interleave]; exact ih.cons₂ _
  | case6 x xs z zs ih => rw [interleave]; exact (ih.cons _).cons₂ _
  | case7 x xs y ys ih => rw [interleave]; exact (ih.cons _).cons₂ _
  | case8 x xs y ys z zs ih =>
    rw [interleave]; exact ((ih.cons _).cons _).cons₂ _

theorem interleave_sublist_mid {α : Type} (xs ys zs : List α) :
    ys.Sublist (interleave xs ys zs) := by
  induction xs, ys, zs using interleave.induct with
  | case1 => rw [interleave]
  | case2 z zs ih => rw [interleave]; exact ih.cons _
  | case3 y ys ih => rw [interleave]; exact ih.cons₂ _
  | case4 y ys z zs ih => rw [interleave]; exact (ih.cons _).cons₂ _
  | case5 x xs ih => rw [interleave]; exact ih.cons _
  | case6 x xs z zs ih => rw [interleave]; exact (ih.cons _).cons _
  | case7 x xs y ys ih => rw [interleave]; exact (ih.cons₂ _).cons _
  | case8 x xs y ys z zs ih =>
    rw [interleave]; exact ((ih.cons _).cons₂ _).cons _

theorem interleave_sublist_right {α : Type} (xs ys zs : List α) :
    zs.Sublist (interleave xs ys zs) := by
  induction xs, ys, zs using interleave.induct with
  | case1 => rw [interleave]
  | case2 z zs ih => rw [interleave]; exact ih.cons₂ _
  | case3 y ys ih => rw [interleave]; exact ih.cons _
  | case4 y ys z zs ih => rw [interleave]; exact (ih.cons₂ _).cons _
  | case5 x xs ih => rw [interleave]; exact ih.cons _
  | case6 x xs z zs ih => rw [interleave]; exact (ih.cons₂ _).cons _
  | case7 x xs y ys ih => rw [interleave]; exact ((ih.cons _).cons _)
  | case8 x xs y ys z zs ih =>
    rw [interleave]; exact ((ih.cons₂ _).cons _).cons _

theorem interleave_filter {α : Type} (p : α → Bool) (xs ys zs : List α)
    (hx : ∀ x ∈ xs, p x = true) (hy : ∀ y ∈ ys, p y = false)
    (hz : ∀ z ∈ zs, p z = false) :
    (interleave xs ys zs).filter p = xs := by
  induction xs, ys, zs using interleave.induct with
  | case1 => rw [interleave]; rfl
  | case2 z zs ih =>
    rw [interleave]
    have h3 := hz _ (List.mem_cons_self _ _)
    have ihx := ih hx hy (fun a ha => hz a (List.mem_cons_of_mem _ ha))
    simp [h3, ihx]
  | case3 y ys ih =>
    rw [interleave]
    have h2 := hy _ (List.mem_cons_self _ _)
    have ihx := ih hx (fun a ha => hy a (List.mem_cons_of_mem _ ha)) hz
    simp [h2, ihx]
  | case4 y ys z zs ih =>
    rw [interleave]
    have h2 := hy _ (List.mem_cons_self _ _)
    have h3 := hz _ (List.mem_cons_self _ _)
    have ihx := ih hx (fun a ha => hy a (List.mem_cons_of_mem _ ha))
      (fun a ha => hz a (List.mem_cons_of_mem _ ha))
    simp [h2, h3, ihx]
  | case5 x xs ih =>
    rw [interleave]
    have h1 := hx _ (List.mem_cons_self _ _)
    have ihx := ih (fun a ha => hx a (List.mem_cons_of_mem _ ha)) hy hz
    simp [h1, ihx]
  | case6 x xs z zs ih =>
    rw [interleave]
    have h1 := hx _ (List.mem_cons_self _ _)
    have h3 := hz _ (List.mem_cons_self _ _)
    have ihx := ih (fun a ha => hx a (List.mem_cons_of_mem _ ha)) hy
      (fun a ha => hz a (List.mem_cons_of_mem _ ha))
    simp [h1, h3, ihx]
  | case7 x xs y ys ih =>
    rw [interleave]
    have h1 := hx _ (List.mem_cons_self _ _)
    have h2 := hy _ (List.mem_cons_self _ _)
    have ihx := ih (fun a ha => hx a (List.mem_cons_of_mem _ ha))
      (fun a ha => hy a (List.mem_cons_of_mem _ ha)) hz
    simp [h1, h2, ihx]
  | case8 x xs y ys z zs ih =>
    rw [interleave]
    have h1 := hx _ (List.mem_cons_self _ _)
    have h2 := hy _ (List.mem_cons_self _ _)
    have h3 := hz _ (List.mem_cons_self _ _)
    have ihx := ih (fun a ha => hx a (List.mem_cons_of_mem _ ha))
      (fun a ha => hy a (List.mem_cons_of_mem _ ha))
      (fun a ha => hz a (List.mem_cons_of_mem _ ha))
    simp [h1, h2, h3, ihx]

theorem interleave_filter_mid {α : Type} (p : α → Bool) (xs ys zs : List α)
    (hx : ∀ x ∈ xs, p x = false) (hy : ∀ y ∈ ys, p y = true)
    (hz : ∀ z ∈ zs, p z = false) :
    (interleave xs ys zs).filter p = ys := by
  induction xs, ys, zs using interleave.induct with
  | case1 => rw [interleave]; rfl
  | case2 z zs ih =>
    rw [interleave]
    have h3 := hz _ (List.mem_cons_self _ _)
    have ihx := ih hx hy (fun a ha => hz a (List.mem_cons_of_mem _ ha))
    simp [h3, ihx]
  | case3 y ys ih =>
    rw [interleave]
    have h2 := hy _ (List.mem_cons_self _ _)
    have ihx := ih hx (fun a ha => hy a (List.mem_cons_of_mem _ ha)) hz
    simp [h2, ihx]
  | case4 y ys z zs ih =>
    rw [interleave]
    have h2 := hy _ (List.mem_cons_self _ _)
    have h3 := hz _ (List.mem_cons_self _ _)
    have ihx := ih hx (fun a ha => hy a (List.mem_cons_of_mem _ ha))
      (fun a ha => hz a (List.mem_cons_of_mem _ ha))
    simp [h2, h3, ihx]
  | case5 x xs ih =>
    rw [interleave]
    have h1 := hx _ (List.mem_cons_self _ _)
    have ihx := ih (fun a ha => hx a (List.mem_cons_of_mem _ ha)) hy hz
    simp [h1, ihx]
  | case6 x xs z zs ih =>
    rw [interleave]
    have h1 := hx _ (List.mem_cons_self _ _)
    have h3 := hz _ (List.mem_cons_self _ _)
    have ihx := ih (fun a ha => hx a (List.mem_cons_of_mem _ ha)) hy
      (fun a ha => hz a (List.mem_cons_of_mem _ ha))
    simp [h1, h3, ihx]
  | case7 x xs y ys ih =>
    rw [interleave]
    have h1 := hx _ (List.mem_cons_self _ _)
    have h2 := hy _ (List.mem_cons_self _ _)
    have ihx := ih (fun a ha => hx a (List.mem_cons_of_mem _ ha))
      (fun a ha => hy a (List.mem_cons_of_mem _ ha)) hz
    simp [h1, h2, ihx]
  | case8 x xs y ys z zs ih =>
    rw [interleave]
    have h1 := hx _ (List.mem_cons_self _ _)
    have h2 := hy _ (List.mem_cons_self _ _)
    have h3 := hz _ (List.mem_cons_self _ _)
    have ihx := ih (fun a ha => hx a (List.mem_cons_of_mem _ ha))
      (fun a ha => hy a (List.mem_cons_of_mem _ ha))
      (fun a ha => hz a (List.mem_cons_of_mem _ ha))
    simp [h1, h2, h3, ihx]

theorem interleave_filter_right {α : Type} (p : α → Bool) (xs ys zs : List α)
    (hx : ∀ x ∈ xs, p x = false) (hy : ∀ y ∈ ys, p y = false)
    (hz : ∀ z ∈ zs, p z = true) :
    (interleave xs ys zs).filter p = zs := by
  induction xs, ys, zs using interleave.induct with
  | case1 => rw [interleave]; rfl
  | case2 z zs ih =>
    rw [interleave]
    have h3 := hz _ (List.mem_cons_self _ _)
    have ihx := ih hx hy (fun a ha => hz a (List.mem_cons_of_mem _ ha))
    simp [h3, ihx]
  | case3 y ys ih =>
    rw [interleave]
    have h2 := hy _ (List.mem_cons_self _ _)
    have ihx := ih hx (fun a ha => hy a (List.mem_cons_of_mem _ ha)) hz
    simp [h2, ihx]
  | case4 y ys z zs ih =>
    rw [interleave]
    have h2 := hy _ (List.mem_cons_self _ _)
    have h3 := hz _ (List.mem_cons_self _ _)
    have ihx := ih hx (fun a ha => hy a (List.mem_cons_of_mem _ ha))
      (fun a ha => hz a (List.mem_cons_of_mem _ ha))
    simp [h2, h3, ihx]
  | case5 x xs ih =>
    rw [interleave]
    have h1 := hx _ (List.mem_cons_self _ _)
    have ihx := ih (fun a ha => hx a (List.mem_cons_of_mem _ ha)) hy hz
    simp [h1, ihx]
  | case6 x xs z zs ih =>
    rw [interleave]
    have h1 := hx _ (List.mem_cons_self _ _)
    have h3 := hz _ (List.mem_cons_self _ _)
    have ihx := ih (fun a ha => hx a (List.mem_cons_of_mem _ ha)) hy
      (fun a ha => hz a (List.mem_cons_of_mem _ ha))
    simp [h1, h3, ihx]
  | case7 x xs y ys ih =>
    rw [interleave]
    have h1 := hx _ (List.mem_cons_self _ _)
    have h2 := hy _ (List.mem_cons_self _ _)
    have ihx := ih (fun a ha => hx a (List.mem_cons_of_mem _ ha))
      (fun a ha => hy a (List.mem_cons_of_mem _ ha)) hz
    simp [h1, h2, ihx]
  | case8 x xs y ys z zs ih =>
    rw [interleave]
    have h1 := hx _ (List.mem_cons_self _ _)
    have h2 := hy _ (List.mem_cons_self _ _)
    have h3 := hz _ (List.mem_cons_self _ _)
    have ihx := ih (fun a ha => hx a (List.mem_cons_of_mem _ ha))
      (fun a ha => hy a (List.mem_cons_of_mem _ ha))
      (fun a ha => hz a (List.mem_cons_of_mem _ ha))
    simp [h1, h2, h3, ihx]

theorem tagged_pred_true (c : Container) (l : List Nat) :
    ∀ j ∈ tagged c l, (j.fst == c) = true := by
  intro j hj
  simp only [tagged, List.mem_map] at hj
  obtain ⟨a, _, rfl⟩ := hj
  simp

theorem tagged_pred_false (c c' : Container) (l : List Nat) (h : c ≠ c') :
    ∀ j ∈ tagged c l, (j.fst == c') = false := by
  intro j hj
  simp only [tagged, List.mem_map] at hj
  obtain ⟨a, _, rfl⟩ := hj
  simpa using h

/-- C6. Round-robin interleaved submission: `download_to` submits jobs in
rounds, at each round taking the next job from every non-empty container
list; within one container the submission order equals the container's list
order (the filter equalities), and every emitted job is submitted exactly
once (the permutation). The two equations state the round structure with
all three, respectively two, containers still non-empty. -/
theorem download_to_round_robin (ns ss ws : List Nat) :
    (interleave (tagged .ncbi ns) (tagged .sra ss) (tagged .wget ws)).Perm
        (tagged .ncbi ns ++ tagged .sra ss ++ tagged .wget ws)
    ∧ (interleave (tagged .ncbi ns) (tagged .sra ss)
        (tagged .wget ws)).filter (fun j => j.fst == Container.ncbi)
        = tagged .ncbi ns
    ∧ (interleave (tagged .ncbi ns) (tagged .sra ss)
        (tagged .wget ws)).filter (fun j => j.fst == Container.sra)
        = tagged .sra ss
    ∧ (interleave (tagged .ncbi ns) (tagged .sra ss)
        (tagged .wget ws)).filter (fun j => j.fst == Container.wget)
        = tagged .wget ws
    ∧ (∀ (x y z : Container × Nat) xs ys zs,
        interleave (x :: xs) (y :: ys) (z :: zs)
          = x :: y :: z :: interleave xs ys zs)
    ∧ (∀ (x z : Container × Nat) xs zs,
        interleave (x :: xs) [] (z :: zs) = x :: z :: interleave xs [] zs) := by
  refine ⟨interleave_perm _ _ _, ?_, ?_, ?_, ?_, ?_⟩
  · exact interleave_filter _ _ _ _ (tagged_pred_true _ _)
      (tagged_pred_false _ _ _ (by simp)) (tagged_pred_false _ _ _ (by simp))
  · exact interleave_filter_mid _ _ _ _ (tagged_pred_false _ _ _ (by simp))
      (tagged_pred_true _ _) (tagged_pred_false _ _ _ (by simp))
  · exact interleave_filter_right _ _ _ _ (tagged_pred_false _ _ _ (by simp))
      (tagged_pred_false _ _ _ (by simp)) (tagged_pred_true _ _)
  · intro x y z xs ys zs
    rw [interleave]
  · intro x z xs zs
    rw [interleave]

/-- C9. A `FunctionJob` constructed with an explicit `log_file` argument
ignores it: its `log_file` is always `name + ".log"` and coincides with
the no-argument construction; a `CmdLineJob` keeps the explicit value
exactly; `add_job` rewrites a log file into the log folder keeping the
basename. -/
theorem functionJob_ignores_log_file_arg :
    (∀ (id : Nat) (name : Option String) (lf : String),
      (functionJobInitNames id name (some lf)).logFile
        = (functionJobInitNames id name (some lf)).name ++ ".log")
    ∧ (∀ (id : Nat) (name : Option String) (lf : String),
      functionJobInitNames id name (some lf)
        = functionJobInitNames id name none)
    ∧ (∀ (id : Nat) (name : Option String) (lf : String),
      (cmdLineJobInitNames id name (some lf)).logFile = lf)
    ∧ (∀ (d lf : String),
      addJobLogFile (some d) lf = d ++ "/" ++ pathBasename lf) :=
  ⟨fun _ _ _ => rfl, fun _ _ _ => rfl, fun _ _ _ => rfl, fun _ _ => rfl⟩

theorem source_delay_ready_true (p : Pacer) (c : PacerCall)
    (h : (source_delay_ready p c).1 = true) :
    p.minDelay < c.t1 - p.lastQuery
      ∧ (source_delay_ready p c).2.lastQuery = c.t2 := by
  unfold source_delay_ready at h ⊢
  by_cases hl : c.extLocked = true
  · rw [if_pos hl] at h
    exact absurd h (by simp)
  · rw [if_neg hl] at h ⊢
    by_cases hr : p.minDelay < c.t1 - p.lastQuery
    · rw [if_pos hr]
      exact ⟨hr, rfl⟩
    · rw [if_neg hr] at h
      exact absurd h (by simp)

theorem source_delay_ready_false (p : Pacer) (c : PacerCall)
    (h : (source_delay_ready p c).1 = false) :
    (source_delay_ready p c).2 = p := by
  unfold source_delay_ready at h ⊢
  by_cases hl : c.extLocked = true
  · rw [if_pos hl]
  · rw [if_neg hl] at h ⊢
    by_cases hr : p.minDelay < c.t1 - p.lastQuery
    · rw [if_pos hr] at h
      exact absurd h (by simp)
    · rw [if_neg hr]

theorem chrono_dropLast (l : List PacerCall) (c : PacerCall) :
    ∀ (t : ℚ), Chrono t (l ++ [c]) → Chrono t l := by
  induction l with
  | nil => intro t _; trivial
  | cons d ds ih =>
    intro t h
    obtain ⟨ha, hb, hc⟩ := h
    exact ⟨ha, hb, ih d.t2 hc⟩

theorem chrono_suffix (l1 l2 : List PacerCall) :
    ∀ (t : ℚ), Chrono t (l1 ++ l2) → ∃ u, Chrono u l2 := by
  induction l1 with
  | nil => intro t h; exact ⟨t, h⟩
  | cons d ds ih =>
    intro t h
    exact ih d.t2 h.2.2

/-- Lemma: `last_query` never drops below a bound `b` that also bounds the start
of the chronological window: every update writes a time `≥ b`. -/
theorem pacerRun_lastQuery_lower (b : ℚ) (cs : List PacerCall) :
    ∀ (p : Pacer) (t0 : ℚ), Chrono t0 cs → b ≤ p.lastQuery → b ≤ t0 →
    b ≤ (pacerRun p cs).2.lastQuery := by
  induction cs with
  | nil => intro p t0 _ hb _; exact hb
  | cons c cs ih =>
    intro p t0 hch hb ht
    obtain ⟨h1, h2, h3⟩ := hch
    show b ≤ (pacerRun (source_delay_ready p c).2 cs).2.lastQuery
    cases hr : (source_delay_ready p c).1 with
    | false =>
      rw [source_delay_ready_false p c hr]
      exact ih p c.t2 h3 hb (by linarith)
    | true =>
      refine ih _ c.t2 h3 ?_ (by linarith)
      rw [(source_delay_ready_true p c hr).2]
      linarith

/-- C5. Pacer bound, over the embedding of
`DataSource.source_delay_ready`: if a call `c1` returns true and, after
any further calls `mid`, a later call `c2` also returns true, then the
wall-clock gap from the end of `c1` to the start of `c2` is at least
`min_delay`; moreover a successful call updates `last_query` to the
current time and an unsuccessful call leaves the state unchanged. -/
theorem pacer_bound (p : Pacer) (t0 : ℚ) (pre mid : List PacerCall)
    (c1 c2 : PacerCall)
    (hd : 0 ≤ p.minDelay)
    (hch : Chrono t0 (pre ++ c1 :: (mid ++ [c2])))
    (h1 : (source_delay_ready (pacerRun p pre).2 c1).1 = true)
    (h2 : (source_delay_ready
        (pacerRun (source_delay_ready (pacerRun p pre).2 c1).2 mid).2
        c2).1 = true) :
    p.minDelay ≤ c2.t1 - c1.t2
    ∧ (source_delay_ready (pacerRun p pre).2 c1).2.lastQuery = c1.t2
    ∧ (∀ (q : Pacer) (c : PacerCall), (source_delay_ready q c).1 = false →
        (source_delay_ready q c).2 = q) := by
  have hmin : ∀ (q : Pacer), (source_delay_ready q c1).2.minDelay
      = q.minDelay := by
    intro q
    unfold source_delay_ready
    split
    · rfl
    · split <;> rfl
  have hminRun : ∀ (cs : List PacerCall) (q : Pacer),
      (pacerRun q cs).2.minDelay = q.minDelay := by
    intro cs
    induction cs with
    | nil => intro q; rfl
    | cons c cs ih =>
      intro q
      show (pacerRun (source_delay_ready q c).2 cs).2.minDelay = _
      rw [ih]
      unfold source_delay_ready
      split
      · rfl
      · split <;> rfl
  -- split the chronology: the window starting at c1
  obtain ⟨t1, ht1a, ht1b, hmidc2⟩ :=
    chrono_suffix pre (c1 :: (mid ++ [c2])) t0 hch
  -- chronology of mid alone
  have hmidChain : Chrono c1.t2 mid := chrono_dropLast mid c2 c1.t2 hmidc2
  -- state just before c2 has last_query ≥ c1.t2
  have hlower : c1.t2 ≤ (pacerRun (source_delay_ready
      (pacerRun p pre).2 c1).2 mid).2.lastQuery := by
    refine pacerRun_lastQuery_lower c1.t2 mid _ c1.t2 hmidChain ?_ le_rfl
    rw [(source_delay_ready_true _ _ h1).2]
  -- success of c2 against that state
  have hc2 := (source_delay_ready_true _ _ h2).1
  rw [hminRun, hmin, hminRun] at hc2
  refine ⟨by linarith, (source_delay_ready_true _ _ h1).2,
    fun q c h => source_delay_ready_false q c h⟩

/-- C4 evidence. On an MD5 mismatch `move_and_clean` moves nothing and
removes the staging directory, but returns normally instead of raising,
so the enclosing `FunctionJob` exits with code 0 and no cancellation is
triggered — contradicting `test_move_and_clean_w_bad_md5`, which expects
a raised `DownloadError`. -/
theorem move_and_clean_mismatch_no_raise :
    move_and_clean (some [("reads.fastq.gz", "aaaa")]) (fun _ => "bbbb") []
      = { movedFiles := [], stagingRemoved := true, raised := false }
    ∧ functionJobExit
        (move_and_clean (some [("reads.fastq.gz", "aaaa")])
          (fun _ => "bbbb") []).raised = 0 :=
  ⟨rfl, rfl⟩

/-- C8 evidence. A failed curl (non-zero return code) in
`valid_accessions_on_API` leaves the source mutex held when the method
returns, and a subsequent batch (or any later `wait_my_turn`) then blocks
forever; `get_ena_ftp_url` in contrast releases the mutex on every path. -/
theorem valid_accessions_on_API_leaks_mutex :
    valid_accessions_on_API_mutex false [⟨false, false⟩] = some true
    ∧ valid_accessions_on_API_mutex false [⟨false, false⟩, ⟨true, false⟩]
        = none
    ∧ (∀ env : FtpEnv, get_ena_ftp_url_mutex false env = some false)
    ∧ (∀ bs : List ApiBatch, ∀ b : ApiBatch, b.curlOk = true →
        valid_accessions_on_API_mutex false (b :: bs)
          = valid_accessions_on_API_mutex false bs) := by
  refine ⟨rfl, rfl, ?_, ?_⟩
  · intro env
    unfold get_ena_ftp_url_mutex
    rcases env with ⟨x, f, r⟩
    cases x <;> cases f <;> rfl
  · intro bs b hb
    simp [valid_accessions_on_API_mutex, apiBatchMutex, hb]

/-- C8 evidence instantiated at a concrete successful batch: processing a
batch whose curl succeeded leaves the mutex state exactly as it was. -/
theorem valid_accessions_on_API_leaks_mutex_witness :
    valid_accessions_on_API_mutex false [⟨true, false⟩]
      = valid_accessions_on_API_mutex false [] :=
  valid_accessions_on_API_leaks_mutex.2.2.2 [] ⟨true, false⟩ rfl

/-- C7 counterexample to the claim as stated: `add` is a command other
than `init`, yet with no register directory the program does not exit
with code 1 — it auto-initialises the register and proceeds. -/
theorem mainDispatch_add_no_register_not_exit1 :
    mainDispatch "Linux" "add" false = .completed true
    ∧ mainDispatch "Linux" "add" false ≠ .exit 1 := by
  constructor
  · rfl
  · intro h
    simp [mainDispatch] at h

/-- C7 amended. Exit code 3 on Windows; exit code 1 for a command other
than `init` and `add` when no register directory exists; in every other
case `main` falls through to the command function, and a command that
completes leaves the process with exit status 0 (per-job failures are
not inspected by `main`). -/
theorem mainDispatch_exit_codes (system cmd : String)
    (registerExists : Bool) :
    (system = "Windows" → mainDispatch system cmd registerExists = .exit 3)
    ∧ (system ≠ "Windows" → cmd ≠ "init" → cmd ≠ "add" →
        registerExists = false →
        mainDispatch system cmd registerExists = .exit 1)
    ∧ (system ≠ "Windows" → (registerExists = true ∨ cmd = "init" ∨
        cmd = "add") →
        mainExitCode (mainDispatch system cmd registerExists) = 0) := by
  refine ⟨?_, ?_, ?_⟩
  · intro h
    simp [mainDispatch, h]
  · intro h1 h2 h3 h4
    subst h4
    simp [mainDispatch, h1, h2, h3]
  · intro h1 h2
    unfold mainDispatch
    rw [if_neg h1]
    rcases h2 with h2 | h2 | h2
    · subst h2
      rw [if_neg (by simp : ¬ (cmd ≠ "init" ∧ true = false))]
      rfl
    · subst h2
      rw [if_neg (by simp : ¬ ("init" ≠ "init" ∧ registerExists = false))]
      rfl
    · subst h2
      by_cases hreg : ("add" ≠ "init" ∧ registerExists = false)
      · rw [if_pos hreg, if_pos rfl]
        rfl
      · rw [if_neg hreg]
        rfl

/-- Concrete instantiation of `mainDispatch_exit_codes`. -/
theorem mainDispatch_exit_codes_witness :
    mainDispatch "Windows" "download" true = .exit 3
    ∧ mainDispatch "Linux" "download" false = .exit 1
    ∧ mainExitCode (mainDispatch "Linux" "download" true) = 0 :=
  ⟨(mainDispatch_exit_codes "Windows" "download" true).1 rfl,
   (mainDispatch_exit_codes "Linux" "download" false).2.1
     (by decide) (by decide) (by decide) rfl,
   (mainDispatch_exit_codes "Linux" "download" true).2.2
     (by decide) (Or.inl rfl)⟩

/-- Concrete instantiation of `pacer_bound`: a pacer with `min_delay`
1 that succeeds at times 2 and 4. -/
theorem pacer_bound_witness :
    (0:ℚ) ≤ (1:ℚ)
    ∧ ((1:ℚ) ≤ (4:ℚ) - (2:ℚ)
      ∧ (source_delay_ready (pacerRun ⟨1, 0⟩ []).2 ⟨false, 2, 2⟩).2.lastQuery
          = (2:ℚ)
      ∧ (∀ (q : Pacer) (c : PacerCall),
          (source_delay_ready q c).1 = false →
          (source_delay_ready q c).2 = q)) := by
  refine ⟨by norm_num, ?_⟩
  have h := pacer_bound ⟨1, 0⟩ 0 [] [] ⟨false, 2, 2⟩ ⟨false, 4, 4⟩
    (by norm_num)
    (by refine ⟨by norm_num, by norm_num, by norm_num, by norm_num, trivial⟩)
    (by norm_num [source_delay_ready, pacerRun])
    (by norm_num [source_delay_ready, pacerRun])
  exact h

theorem DescOf.trans {deps : Nat → List Nat} {a b c : Nat}
    (h1 : DescOf deps a b) (h2 : DescOf deps b c) : DescOf deps a c := by
  induction h1 with
  | refl => exact h2
  | step j d k hd _ ih => exact .step j d c hd (ih h2)

theorem stopJob_idem (j : JobState) : stopJob (stopJob j) = stopJob j := by
  unfold stopJob
  cases h : j.proc <;> simp [h]

theorem stopJob_isOver (j : JobState) : (stopJob j).isOver = true := rfl

theorem stopJob_exited (j : JobState) (c : Int) (h : j.proc = .exited c) :
    (stopJob j).proc = .exited c := by
  unfold stopJob
  rw [h]

theorem CancelPres.rfl (s : Sched) : CancelPres s s where
  deps_eq := Eq.refl _
  nextId_eq := Eq.refl _
  max_eq := Eq.refl _
  procs_eq := Eq.refl _
  waiting_sub := List.Sublist.refl _
  running_sub := List.Sublist.refl _
  parents_eq := fun _ => Eq.refl _
  count_eq := fun _ => Eq.refl _
  kind_eq := fun _ => Eq.refl _
  over_mono := fun _ h => h
  exited_stable := fun _ _ h => h

theorem CancelPres.comp {s1 s2 s3 : Sched}
    (h12 : CancelPres s1 s2) (h23 : CancelPres s2 s3) : CancelPres s1 s3 where
  deps_eq := h23.deps_eq.trans h12.deps_eq
  nextId_eq := h23.nextId_eq.trans h12.nextId_eq
  max_eq := h23.max_eq.trans h12.max_eq
  procs_eq := h23.procs_eq.trans h12.procs_eq
  waiting_sub := h23.waiting_sub.trans h12.waiting_sub
  running_sub := h23.running_sub.trans h12.running_sub
  parents_eq := fun q => (h23.parents_eq q).trans (h12.parents_eq q)
  count_eq := fun q => (h23.count_eq q).trans (h12.count_eq q)
  kind_eq := fun q => (h23.kind_eq q).trans (h12.kind_eq q)
  over_mono := fun q h => h23.over_mono q (h12.over_mono q h)
  exited_stable := fun q c h => h23.exited_stable q c (h12.exited_stable q c h)

theorem cancelJob_succ_jobs (fuel : Nat) (j : Nat) (s : Sched)
    (q : Nat) :
    (cancelJob (fuel + 1) j s).jobs q =
      if q = j then stopJob ((cancelFold fuel s (s.deps j)).jobs q)
      else (cancelFold fuel s (s.deps j)).jobs q := rfl

theorem cancelJob_succ_waiting (fuel : Nat) (j : Nat) (s : Sched) :
    (cancelJob (fuel + 1) j s).waiting
      = (cancelFold fuel s (s.deps j)).waiting.erase j := rfl

theorem cancelJob_succ_running (fuel : Nat) (j : Nat) (s : Sched) :
    (cancelJob (fuel + 1) j s).running
      = (cancelFold fuel s (s.deps j)).running.erase j := rfl

theorem cancelJob_succ_deps (fuel : Nat) (j : Nat) (s : Sched) :
    (cancelJob (fuel + 1) j s).deps
      = (cancelFold fuel s (s.deps j)).deps := rfl

theorem cancelJob_succ_nextId (fuel : Nat) (j : Nat) (s : Sched) :
    (cancelJob (fuel + 1) j s).nextId
      = (cancelFold fuel s (s.deps j)).nextId := rfl

theorem cancelJob_succ_max (fuel : Nat) (j : Nat) (s : Sched) :
    (cancelJob (fuel + 1) j s).maxProcess
      = (cancelFold fuel s (s.deps j)).maxProcess := rfl

theorem cancelJob_succ_procs (fuel : Nat) (j : Nat) (s : Sched) :
    (cancelJob (fuel + 1) j s).processes
      = (cancelFold fuel s (s.deps j)).processes := rfl

theorem cancelJob_pres :
    ∀ (fuel : Nat) (j : Nat) (s : Sched), CancelPres s (cancelJob fuel j s) := by
  intro fuel
  induction fuel with
  | zero => intro j s; exact .rfl s
  | succ fuel ih =>
    intro j s
    have hfold : ∀ (l : List Nat) (st : Sched),
        CancelPres st (cancelFold fuel st l) := by
      intro l
      induction l with
      | nil => intro st; exact .rfl st
      | cons d ds ihl =>
        intro st
        show CancelPres st (cancelFold fuel (cancelJob fuel d st) ds)
        exact (ih d st).comp (ihl _)
    refine (hfold (s.deps j) s).comp ?_
    constructor
    · rw [cancelJob_succ_deps]
    · rw [cancelJob_succ_nextId]
    · rw [cancelJob_succ_max]
    · rw [cancelJob_succ_procs]
    · rw [cancelJob_succ_waiting]
      exact List.erase_sublist _ _
    · rw [cancelJob_succ_running]
      exact List.erase_sublist _ _
    · intro q
      rw [cancelJob_succ_jobs]
      by_cases hq : q = j
      · rw [if_pos hq]; rfl
      · rw [if_neg hq]
    · intro q
      rw [cancelJob_succ_jobs]
      by_cases hq : q = j
      · rw [if_pos hq]; rfl
      · rw [if_neg hq]
    · intro q
      rw [cancelJob_succ_jobs]
      by_cases hq : q = j
      · rw [if_pos hq]; rfl
      · rw [if_neg hq]
    · intro q h
      rw [cancelJob_succ_jobs]
      by_cases hq : q = j
      · rw [if_pos hq]; rfl
      · rw [if_neg hq]; exact h
    · intro q c h
      rw [cancelJob_succ_jobs]
      by_cases hq : q = j
      · rw [if_pos hq]
        exact stopJob_exited _ _ h
      · rw [if_neg hq]; exact h

theorem cancelFold_pres (fuel : Nat) (l : List Nat) :
    ∀ (s : Sched), CancelPres s (cancelFold fuel s l) := by
  induction l with
  | nil => intro s; exact .rfl s
  | cons d ds ihl =>
    intro s
    show CancelPres s (cancelFold fuel (cancelJob fuel d s) ds)
    exact (cancelJob_pres fuel d s).comp (ihl _)

/-- The children fold keeps every job untouched or stopped, given the
one-step cancel does. -/
theorem cancelFold_jobs_cases_of (fuel : Nat)
    (hf : ∀ d st q, (cancelJob fuel d st).jobs q = st.jobs q
      ∨ (cancelJob fuel d st).jobs q = stopJob (st.jobs q)) :
    ∀ (l : List Nat) (st : Sched) (q : Nat),
      (cancelFold fuel st l).jobs q = st.jobs q
      ∨ (cancelFold fuel st l).jobs q = stopJob (st.jobs q) := by
  intro l
  induction l with
  | nil => intro st q; exact Or.inl (Eq.refl _)
  | cons d ds ihl =>
    intro st q
    show (cancelFold fuel (cancelJob fuel d st) ds).jobs q = st.jobs q
      ∨ (cancelFold fuel (cancelJob fuel d st) ds).jobs q
          = stopJob (st.jobs q)
    rcases ihl (cancelJob fuel d st) q with h | h <;> rcases hf d st q with h2 | h2
    · exact Or.inl (h.trans h2)
    · exact Or.inr (h.trans h2)
    · exact Or.inr (by rw [h, h2])
    · exact Or.inr (by rw [h, h2, stopJob_idem])

/-- Lemma: `cancel_job` leaves every job either untouched or stopped. -/
theorem cancelJob_jobs_cases :
    ∀ (fuel : Nat) (j : Nat) (s : Sched) (q : Nat),
      (cancelJob fuel j s).jobs q = s.jobs q
      ∨ (cancelJob fuel j s).jobs q = stopJob (s.jobs q) := by
  intro fuel
  induction fuel with
  | zero => intro j s q; exact Or.inl (Eq.refl _)
  | succ fuel ih =>
    intro j s q
    have hfold := cancelFold_jobs_cases_of fuel
      (fun d st q => ih d st q) (s.deps j) s q
    rw [cancelJob_succ_jobs]
    rcases hfold with h | h
    · by_cases hq : q = j
      · rw [if_pos hq, h]
        exact Or.inr (Eq.refl _)
      · rw [if_neg hq]
        exact Or.inl h
    · by_cases hq : q = j
      · rw [if_pos hq, h, stopJob_idem]
        exact Or.inr (Eq.refl _)
      · rw [if_neg hq]
        exact Or.inr h

/-- With any fuel at all, `cancel_job` stops the job it was called on. -/
theorem cancelJob_root (fuel : Nat) (j : Nat) (s : Sched)
    (h : 1 ≤ fuel) : (cancelJob fuel j s).jobs j = stopJob (s.jobs j) := by
  cases fuel with
  | zero => omega
  | succ fuel =>
    rw [cancelJob_succ_jobs, if_pos (Eq.refl j)]
    rcases cancelFold_jobs_cases_of fuel
      (fun d st q => cancelJob_jobs_cases fuel d st q) (s.deps j) s j
      with hc | hc
    · rw [hc]
    · rw [hc, stopJob_idem]

theorem cancelFold_cons (fuel : Nat) (s : Sched) (d : Nat)
    (l : List Nat) :
    cancelFold fuel s (d :: l) = cancelFold fuel (cancelJob fuel d s) l := rfl

theorem cancelFold_append (fuel : Nat) (s : Sched) (l1 l2 : List Nat) :
    cancelFold fuel s (l1 ++ l2)
      = cancelFold fuel (cancelFold fuel s l1) l2 := by
  unfold cancelFold
  rw [List.foldl_append]

/-- A job newly `is_over` after `cancel_job` is a registered transitive
dependant of the cancelled job. -/
theorem cancelJob_isOver_src :
    ∀ (fuel : Nat) (j : Nat) (s : Sched) (q : Nat),
      ((cancelJob fuel j s).jobs q).isOver = true →
      (s.jobs q).isOver = true ∨ DescOf s.deps j q := by
  intro fuel
  induction fuel with
  | zero => intro j s q h; exact Or.inl h
  | succ fuel ih =>
    have hfold : ∀ (l : List Nat) (st : Sched) (q : Nat),
        ((cancelFold fuel st l).jobs q).isOver = true →
        (st.jobs q).isOver = true ∨ ∃ d ∈ l, DescOf st.deps d q := by
      intro l
      induction l with
      | nil => intro st q h; exact Or.inl h
      | cons d ds ihl =>
        intro st q h
        rw [cancelFold_cons] at h
        rcases ihl (cancelJob fuel d st) q h with h2 | h2
        · rcases ih d st q h2 with h3 | h3
          · exact Or.inl h3
          · exact Or.inr ⟨d, List.mem_cons_self _ _, h3⟩
        · obtain ⟨e, he, hdesc⟩ := h2
          rw [(cancelJob_pres fuel d st).deps_eq] at hdesc
          exact Or.inr ⟨e, List.mem_cons_of_mem _ he, hdesc⟩
    intro j s q h
    rw [cancelJob_succ_jobs] at h
    by_cases hq : q = j
    · exact Or.inr (hq ▸ DescOf.refl q)
    · rw [if_neg hq] at h
      rcases hfold (s.deps j) s q h with h2 | h2
      · exact Or.inl h2
      · obtain ⟨d, hd, hdesc⟩ := h2
        exact Or.inr (DescOf.step j d q hd hdesc)

/-- With increasing registered edges and enough fuel, `cancel_job` stops
every registered transitive dependant and removes it from `waiting`. -/
theorem cancelJob_stops_desc :
    ∀ (fuel : Nat) (j k : Nat) (s : Sched),
      (∀ p c, c ∈ s.deps p → p < c ∧ c < s.nextId) →
      j < s.nextId → s.nextId ≤ j + fuel →
      DescOf s.deps j k →
      ((cancelJob fuel j s).jobs k).isOver = true
      ∧ (s.waiting.Nodup → k ∉ (cancelJob fuel j s).waiting) := by
  intro fuel
  induction fuel with
  | zero =>
    intro j k s hedges hj hfuel hdesc
    exact absurd hfuel (by rw [Nat.add_zero]; exact Nat.not_le.mpr hj)
  | succ fuel ih =>
    intro j k s hedges hj hfuel hdesc
    cases hdesc with
    | refl =>
      constructor
      · rw [cancelJob_succ_jobs, if_pos (Eq.refl j)]
        exact stopJob_isOver _
      · intro hnd hmem
        rw [cancelJob_succ_waiting] at hmem
        have hnd1 : (cancelFold fuel s (s.deps j)).waiting.Nodup :=
          List.Nodup.sublist (cancelFold_pres fuel (s.deps j) s).waiting_sub
            hnd
        rw [List.Nodup.mem_erase_iff hnd1] at hmem
        exact hmem.1 (Eq.refl j)
    | step j c k hc hdesc2 =>
      obtain ⟨l1, l2, hl⟩ := List.append_of_mem hc
      obtain ⟨hjc1, hjc2⟩ := hedges j c hc
      -- the state after the fold over the children before c
      have hmidP := cancelFold_pres fuel l1 s
      have hcstep := ih c k (cancelFold fuel s l1)
        (by
          intro p e he
          rw [hmidP.deps_eq] at he
          rw [hmidP.nextId_eq]
          exact hedges p e he)
        (by rw [hmidP.nextId_eq]; exact hjc2)
        (by rw [hmidP.nextId_eq]; omega)
        (by rw [hmidP.deps_eq]; exact hdesc2)
      have htailP := cancelFold_pres fuel l2
        (cancelJob fuel c (cancelFold fuel s l1))
      have hs1 : cancelFold fuel s (s.deps j)
          = cancelFold fuel (cancelJob fuel c (cancelFold fuel s l1)) l2 := by
        rw [hl, cancelFold_append, cancelFold_cons]
      constructor
      · rw [cancelJob_succ_jobs]
        have hov : ((cancelFold fuel s (s.deps j)).jobs k).isOver = true := by
          rw [hs1]
          exact htailP.over_mono k hcstep.1
        by_cases hk : k = j
        · rw [if_pos hk]
          exact stopJob_isOver _
        · rw [if_neg hk]
          exact hov
      · intro hnd hmem
        rw [cancelJob_succ_waiting] at hmem
        have hmem2 := List.mem_of_mem_erase hmem
        rw [hs1] at hmem2
        have hmem3 := htailP.waiting_sub.subset hmem2
        exact hcstep.2 (List.Nodup.sublist hmidP.waiting_sub hnd) hmem3

theorem SweepSpec.triv (l : List Nat) (st : Sched) (ds : List Nat) :
    SweepSpec l st ds (st, ds) where
  running_eq := Eq.refl _
  waiting_eq := Eq.refl _
  deps_eq := Eq.refl _
  nextId_eq := Eq.refl _
  max_eq := Eq.refl _
  procs_eq := Eq.refl _
  parents_eq := fun _ => Eq.refl _
  count_eq := fun _ => Eq.refl _
  kind_eq := fun _ => Eq.refl _
  exited_stable := fun _ _ h => h
  over_mono := fun _ h => h
  over_src := fun _ h => Or.inl h
  dead_ext := fun _ h => h
  dead_src := fun _ h => Or.inl h
  untouched := fun _ _ => Eq.refl _
  dead_state := fun _ h => Or.inl h

theorem SweepSpec.chain {j : Nat} {l : List Nat} {st : Sched}
    {ds : List Nat} {r1 r2 : Sched × List Nat}
    (h1 : SweepSpec [j] st ds r1) (h2 : SweepSpec l r1.1 r1.2 r2) :
    SweepSpec (j :: l) st ds r2 where
  running_eq := h2.running_eq.trans h1.running_eq
  waiting_eq := h2.waiting_eq.trans h1.waiting_eq
  deps_eq := h2.deps_eq.trans h1.deps_eq
  nextId_eq := h2.nextId_eq.trans h1.nextId_eq
  max_eq := h2.max_eq.trans h1.max_eq
  procs_eq := h2.procs_eq.trans h1.procs_eq
  parents_eq := fun q => (h2.parents_eq q).trans (h1.parents_eq q)
  count_eq := fun q => (h2.count_eq q).trans (h1.count_eq q)
  kind_eq := fun q => (h2.kind_eq q).trans (h1.kind_eq q)
  exited_stable := fun q c h => h2.exited_stable q c (h1.exited_stable q c h)
  over_mono := fun q h => h2.over_mono q (h1.over_mono q h)
  over_src := fun q h => by
    rcases h2.over_src q h with h3 | h3
    · rcases h1.over_src q h3 with h4 | h4
      · exact Or.inl h4
      · exact Or.inr (h2.dead_ext q h4)
    · exact Or.inr h3
  dead_ext := fun q h => h2.dead_ext q (h1.dead_ext q h)
  dead_src := fun q h => by
    rcases h2.dead_src q h with h3 | h3
    · rcases h1.dead_src q h3 with h4 | h4
      · exact Or.inl h4
      · rw [List.mem_singleton] at h4
        exact Or.inr (h4 ▸ List.mem_cons_self _ _)
    · exact Or.inr (List.mem_cons_of_mem _ h3)
  untouched := fun q h => by
    have hq1 : q ∉ r1.2 := fun hmem => h (h2.dead_ext q hmem)
    exact (h2.untouched q h).trans (h1.untouched q hq1)
  dead_state := fun q h => by
    rcases h2.dead_state q h with h3 | h3
    · rcases h1.dead_state q h3 with h4 | h4
      · exact Or.inl h4
      · refine Or.inr ⟨h2.over_mono q h4.1, ?_⟩
        obtain ⟨c, hc⟩ := h4.2
        exact ⟨c, h2.exited_stable q c hc⟩
    · exact Or.inr h3

theorem sweepStep_spec (o : Oracle) (st : Sched) (ds : List Nat)
    (j : Nat) : SweepSpec [j] st ds (sweepStep o (st, ds) j) := by
  unfold sweepStep
  split
  case h_1 c hproc =>
    split
    case h_1 c hex =>
      constructor
      case running_eq => rfl
      case waiting_eq => rfl
      case deps_eq => rfl
      case nextId_eq => rfl
      case max_eq => rfl
      case procs_eq => rfl
      case parents_eq =>
        intro q
        by_cases hq : q = j <;> simp [setJob, hq]
      case count_eq =>
        intro q
        by_cases hq : q = j <;> simp [setJob, hq]
      case kind_eq =>
        intro q
        by_cases hq : q = j <;> simp [setJob, hq]
      case exited_stable =>
        intro q c2 hc2
        by_cases hq : q = j
        · subst hq
          rw [hproc] at hc2
          exact absurd hc2 (by simp)
        · simpa [setJob, hq] using hc2
      case over_mono =>
        intro q hq2
        by_cases hq : q = j <;> simp [setJob, hq]
        exact hq2
      case over_src =>
        intro q hq2
        by_cases hq : q = j
        · exact Or.inr (by simp [hq])
        · simp [setJob, hq] at hq2
          exact Or.inl hq2
      case dead_ext =>
        intro q hq
        simp [hq]
      case dead_src =>
        intro q hq
        simp at hq
        rcases hq with hq | hq
        · exact Or.inl hq
        · exact Or.inr (by simp [hq])
      case untouched =>
        intro q hq
        have hqj : q ≠ j := by
          intro h
          exact hq (by simp [h])
        simp [setJob, hqj]
      case dead_state =>
        intro q hq
        simp at hq
        rcases hq with hq | hq
        · exact Or.inl hq
        · subst hq
          refine Or.inr ⟨by simp [setJob], ⟨c, by simp [setJob]⟩⟩
    case h_2 hex => exact SweepSpec.triv _ _ _
  case h_2 c hproc =>
    constructor
    case running_eq => rfl
    case waiting_eq => rfl
    case deps_eq => rfl
    case nextId_eq => rfl
    case max_eq => rfl
    case procs_eq => rfl
    case parents_eq =>
      intro q
      by_cases hq : q = j <;> simp [setJob, hq]
    case count_eq =>
      intro q
      by_cases hq : q = j <;> simp [setJob, hq]
    case kind_eq =>
      intro q
      by_cases hq : q = j <;> simp [setJob, hq]
    case exited_stable =>
      intro q c2 hc2
      by_cases hq : q = j
      · subst hq
        simpa [setJob] using hc2
      · simpa [setJob, hq] using hc2
    case over_mono =>
      intro q hq2
      by_cases hq : q = j <;> simp [setJob, hq]
      exact hq2
    case over_src =>
      intro q hq2
      by_cases hq : q = j
      · exact Or.inr (by simp [hq])
      · simp [setJob, hq] at hq2
        exact Or.inl hq2
    case dead_ext =>
      intro q hq
      simp [hq]
    case dead_src =>
      intro q hq
      simp at hq
      rcases hq with hq | hq
      · exact Or.inl hq
      · exact Or.inr (by simp [hq])
    case untouched =>
      intro q hq
      have hqj : q ≠ j := by
        intro h
        exact hq (by simp [h])
      simp [setJob, hqj]
    case dead_state =>
      intro q hq
      simp at hq
      rcases hq with hq | hq
      · exact Or.inl hq
      · subst hq
        refine Or.inr ⟨by simp [setJob], ⟨c, by simp [setJob]; exact hproc⟩⟩
  case h_3 hproc h2 => exact SweepSpec.triv _ _ _

theorem sweepFold_spec (o : Oracle) (l : List Nat) :
    ∀ (st : Sched) (ds : List Nat),
      SweepSpec l st ds (l.foldl (sweepStep o) (st, ds)) := by
  induction l with
  | nil => intro st ds; exact SweepSpec.triv _ _ _
  | cons j rest ih =>
    intro st ds
    rw [List.foldl_cons]
    have h1 := sweepStep_spec o st ds j
    have h2 := ih (sweepStep o (st, ds) j).1 (sweepStep o (st, ds) j).2
    exact h1.chain h2

theorem reapSweep_spec (o : Oracle) (s : Sched) :
    SweepSpec s.running s [] (reapSweep o s) :=
  sweepFold_spec o s.running s []

theorem isReady_true_elim {jobs : Nat → JobState} {cs : Nat → Bool}
    {j : Nat} (h : isReady jobs cs j = true) :
    (jobs j).isOver = false
    ∧ (∀ p ∈ (jobs j).parents, (jobs p).isOver = true)
    ∧ cs j = true := by
  unfold isReady at h
  by_cases h1 : (jobs j).isOver = true
  · rw [if_pos h1] at h
    exact absurd h (by simp)
  · rw [if_neg h1] at h
    by_cases h2 : (jobs j).parents.all (fun p => (jobs p).isOver) = true
    · rw [if_neg (by simp [h2])] at h
      exact ⟨by simpa using h1,
        fun p hp => List.all_eq_true.mp h2 p hp, h⟩
    · have hall : (jobs j).parents.all (fun p => (jobs p).isOver) = false := by
        rcases Bool.eq_false_or_eq_true
            ((jobs j).parents.all (fun p => (jobs p).isOver)) with hh | hh
        · exact absurd hh h2
        · exact hh
      rw [hall] at h
      simp at h

/-- Lemma: `is_ready` is false for a job whose `is_over` flag is already set. -/
theorem isReady_of_over (jobs : Nat → JobState) (cs : Nat → Bool)
    (j : Nat) (h : (jobs j).isOver = true) : isReady jobs cs j = false := by
  unfold isReady
  rw [if_pos h]

theorem PromSpec.parents_pres {s : Sched} {r : Sched × List Nat}
    (h : PromSpec s r) (q : Nat) :
    (r.1.jobs q).parents = (s.jobs q).parents := by
  by_cases hq : q ∈ r.2
  · rw [h.started q hq]; rfl
  · rw [h.untouched q hq]

theorem PromSpec.over_pres {s : Sched} {r : Sched × List Nat}
    (h : PromSpec s r) (q : Nat) :
    (r.1.jobs q).isOver = (s.jobs q).isOver := by
  by_cases hq : q ∈ r.2
  · rw [h.started q hq]; rfl
  · rw [h.untouched q hq]

theorem PromSpec.kind_pres {s : Sched} {r : Sched × List Nat}
    (h : PromSpec s r) (q : Nat) :
    (r.1.jobs q).kind = (s.jobs q).kind := by
  by_cases hq : q ∈ r.2
  · rw [h.started q hq]; rfl
  · rw [h.untouched q hq]

theorem promoteScan_spec (o : Oracle) :
    ∀ (ws : List Nat) (s : Sched), ws.Nodup →
      PromSpec s (promoteScan o s ws)
      ∧ (∀ q ∈ (promoteScan o s ws).2, q ∈ ws)
      ∧ (promoteScan o s ws).2.Nodup
      ∧ (s.running.length ≤ s.maxProcess →
          (promoteScan o s ws).1.running.length ≤ s.maxProcess) := by
  intro ws
  induction ws with
  | nil =>
    intro s hnd
    refine ⟨⟨rfl, rfl, rfl, rfl, rfl, (List.append_nil _).symm,
        fun q _ => rfl,
        fun q hq => absurd hq (List.not_mem_nil q),
        fun q hq => absurd hq (List.not_mem_nil q),
        fun q hq => absurd hq (List.not_mem_nil q)⟩,
      fun q hq => absurd hq (List.not_mem_nil q),
      List.nodup_nil, fun h => h⟩
  | cons j rest ih =>
    intro s hnd
    have hndr := (List.nodup_cons.mp hnd).2
    have hjout := (List.nodup_cons.mp hnd).1
    rw [promoteScan]
    by_cases hb : s.maxProcess ≤ s.running.length
    · rw [if_pos hb]
      refine ⟨⟨rfl, rfl, rfl, rfl, rfl, (List.append_nil _).symm,
          fun q _ => rfl,
          fun q hq => absurd hq (List.not_mem_nil q),
          fun q hq => absurd hq (List.not_mem_nil q),
          fun q hq => absurd hq (List.not_mem_nil q)⟩,
        fun q hq => absurd hq (List.not_mem_nil q),
        List.nodup_nil, fun h => h⟩
    · rw [if_neg hb]
      by_cases hr : isReady s.jobs o.canStart j = true
      · rw [if_pos hr]
        obtain ⟨hov, hpar, hcs⟩ := isReady_true_elim hr
        set s2 : Sched :=
          { setJob s j (startJob (s.jobs j)) with
            running := (setJob s j (startJob (s.jobs j))).running ++ [j] }
          with hs2
        obtain ⟨ihP, ihSub, ihNd, ihCap⟩ := ih s2 hndr
        have hjnotin : j ∉ (promoteScan o s2 rest).2 :=
          fun hmem => hjout (ihSub j hmem)
        have hs2jobs : ∀ q, q ≠ j → s2.jobs q = s.jobs q := by
          intro q hq
          simp [hs2, setJob, hq]
        have hs2j : s2.jobs j = startJob (s.jobs j) := by
          simp [hs2, setJob]
        refine ⟨⟨ihP.waiting_eq, ihP.deps_eq, ihP.nextId_eq, ihP.max_eq,
            ihP.procs_eq, ?_, ?_, ?_, ?_, ?_⟩, ?_, ?_, ?_⟩
        · show (promoteScan o s2 rest).1.running
            = s.running ++ j :: (promoteScan o s2 rest).2
          rw [ihP.running_eq]
          show s.running ++ [j] ++ _ = _
          rw [List.append_assoc]
          rfl
        · intro q hq
          have hq2 : q ∉ (promoteScan o s2 rest).2 :=
            fun hmem => hq (List.mem_cons_of_mem _ hmem)
          have hqj : q ≠ j := fun h => hq (h ▸ List.mem_cons_self _ _)
          rw [ihP.untouched q hq2, hs2jobs q hqj]
        · intro q hq
          rcases List.mem_cons.mp hq with hq | hq
          · subst hq
            rw [ihP.untouched q hjnotin, hs2j]
          · have hqj : q ≠ j := fun h => hjnotin (h ▸ hq)
            rw [ihP.started q hq, hs2jobs q hqj]
        · intro q hq
          rcases List.mem_cons.mp hq with hq | hq
          · subst hq; exact hov
          · have hqj : q ≠ j := fun h => hjnotin (h ▸ hq)
            have := ihP.ready_over q hq
            rwa [hs2jobs q hqj] at this
        · intro q hq p hp
          rcases List.mem_cons.mp hq with hq | hq
          · subst hq; exact hpar p hp
          · have hqj : q ≠ j := fun h => hjnotin (h ▸ hq)
            have hp2 : p ∈ (s2.jobs q).parents := by
              rwa [hs2jobs q hqj]
            have hpo := ihP.ready_parents q hq p hp2
            by_cases hpj : p = j
            · subst hpj
              rw [hs2j] at hpo
              have : (s.jobs p).isOver = true := hpo
              rw [hov] at this
              exact absurd this (by simp)
            · rwa [hs2jobs p hpj] at hpo
        · intro q hq
          rcases List.mem_cons.mp hq with hq | hq
          · subst hq; exact List.mem_cons_self _ _
          · exact List.mem_cons_of_mem _ (ihSub q hq)
        · exact List.nodup_cons.mpr ⟨hjnotin, ihNd⟩
        · intro hcap
          have hs2cap : s2.running.length ≤ s2.maxProcess := by
            show (s.running ++ [j]).length ≤ s.maxProcess
            rw [List.length_append, List.length_singleton]
            omega
          have := ihCap hs2cap
          show (promoteScan o s2 rest).1.running.length ≤ s.maxProcess
          exact this
      · rw [if_neg hr]
        obtain ⟨ihP, ihSub, ihNd, ihCap⟩ := ih s hndr
        refine ⟨ihP, ?_, ihNd, ihCap⟩
        intro q hq
        exact List.mem_cons_of_mem _ (ihSub q hq)

/-- When `running` is already full, the scan promotes nothing. -/
theorem promoteScan_full (o : Oracle) (s : Sched) (ws : List Nat)
    (h : s.maxProcess ≤ s.running.length) :
    promoteScan o s ws = (s, []) := by
  cases ws with
  | nil => rw [promoteScan]
  | cons j rest =>
    rw [promoteScan, if_pos h]

theorem getReturncode_some_iff (x : JobState) (c : Int) :
    getReturncode x = some c ↔ x.proc = .exited c := by
  unfold getReturncode
  cases h : x.proc <;> simp

theorem erase_running_pres (s : Sched) (d : Nat) :
    CancelPres s { s with running := s.running.erase d } where
  deps_eq := Eq.refl _
  nextId_eq := Eq.refl _
  max_eq := Eq.refl _
  procs_eq := Eq.refl _
  waiting_sub := List.Sublist.refl _
  running_sub := List.erase_sublist _ _
  parents_eq := fun _ => Eq.refl _
  count_eq := fun _ => Eq.refl _
  kind_eq := fun _ => Eq.refl _
  over_mono := fun _ h => h
  exited_stable := fun _ _ h => h

theorem handleStep_pres (fuel : Nat) (st : Sched) (j : Nat) :
    CancelPres st (handleStep fuel st j) := by
  unfold handleStep
  by_cases hc : getReturncode (st.jobs j) = some 0
  · rw [if_pos hc]
    exact erase_running_pres st j
  · rw [if_neg hc]
    exact (erase_running_pres st j).comp (cancelJob_pres fuel j _)

theorem reapHandle_pres (fuel : Nat) (dead : List Nat) :
    ∀ (s : Sched), CancelPres s (reapHandle fuel s dead) := by
  induction dead with
  | nil => intro s; exact .rfl s
  | cons d ds ih =>
    intro s
    show CancelPres s (reapHandle fuel (handleStep fuel s d) ds)
    exact (handleStep_pres fuel s d).comp (ih _)

theorem foldl_erase_sublist (pr : List Nat) :
    ∀ (w : List Nat), (pr.foldl (fun w j => w.erase j) w).Sublist w := by
  induction pr with
  | nil => intro w; exact List.Sublist.refl _
  | cons j pr ih =>
    intro w
    rw [List.foldl_cons]
    exact (ih (w.erase j)).trans (List.erase_sublist _ _)

theorem reapHandle_cons (fuel : Nat) (s : Sched) (d : Nat)
    (ds : List Nat) :
    reapHandle fuel s (d :: ds) = reapHandle fuel (handleStep fuel s d) ds :=
  rfl

/-- After the second reap loop, every waiting job's finished parents
exited with code 0: the loop cancelled (and removed from `waiting`) all
registered descendants of every dead job that did not exit 0. -/
theorem reapHandle_f2 (fuel : Nat) :
    ∀ (dead : List Nat) (s : Sched),
      (∀ j p, p ∈ (s.jobs j).parents → j ∈ s.deps p) →
      (∀ p c, c ∈ s.deps p → p < c ∧ c < s.nextId) →
      s.waiting.Nodup →
      (∀ d ∈ dead, d < s.nextId) →
      s.nextId ≤ fuel →
      (∀ k ∈ s.waiting, ∀ p ∈ (s.jobs k).parents,
        (s.jobs p).isOver = true →
        getReturncode (s.jobs p) = some 0 ∨ p ∈ dead) →
      ∀ k ∈ (reapHandle fuel s dead).waiting,
        ∀ p ∈ ((reapHandle fuel s dead).jobs k).parents,
        ((reapHandle fuel s dead).jobs p).isOver = true →
        getReturncode ((reapHandle fuel s dead).jobs p) = some 0 := by
  intro dead
  induction dead with
  | nil =>
    intro s hd1 hd2 hnd hdb hfu hph k hk p hp hov
    rcases hph k hk p hp hov with h | h
    · exact h
    · exact absurd h (List.not_mem_nil p)
  | cons d ds ih =>
    intro s hd1 hd2 hnd hdb hfu hph
    rw [reapHandle_cons]
    have hdlt : d < s.nextId := hdb d (List.mem_cons_self _ _)
    unfold handleStep
    by_cases hc : getReturncode (s.jobs d) = some 0
    · rw [if_pos hc]
      refine ih { s with running := s.running.erase d } hd1 hd2 hnd
        (fun e he => hdb e (List.mem_cons_of_mem _ he)) hfu ?_
      intro k hk p hp hov
      rcases hph k hk p hp hov with h | h
      · exact Or.inl h
      · rcases List.mem_cons.mp h with h | h
        · exact Or.inl (h ▸ hc)
        · exact Or.inr h
    · rw [if_neg hc]
      set st1 : Sched := { s with running := s.running.erase d } with hst1
      have hpres := cancelJob_pres fuel d st1
      have hst1waiting : st1.waiting = s.waiting := Eq.refl _
      have hst1jobs : ∀ q, st1.jobs q = s.jobs q := fun _ => Eq.refl _
      have hst1deps : st1.deps = s.deps := Eq.refl _
      have hst1next : st1.nextId = s.nextId := Eq.refl _
      refine ih (cancelJob fuel d st1) ?_ ?_ ?_ ?_ ?_ ?_
      · intro j p hp
        rw [hpres.parents_eq] at hp
        rw [hpres.deps_eq]
        exact hd1 j p hp
      · intro p c hcmem
        rw [hpres.deps_eq] at hcmem
        rw [hpres.nextId_eq, hst1next]
        exact hd2 p c hcmem
      · exact List.Nodup.sublist hpres.waiting_sub hnd
      · intro e he
        rw [hpres.nextId_eq, hst1next]
        exact hdb e (List.mem_cons_of_mem _ he)
      · rw [hpres.nextId_eq, hst1next]
        exact hfu
      · intro k hk p hp hov
        have hkS : k ∈ s.waiting := hpres.waiting_sub.subset hk
        have hpS : p ∈ (s.jobs k).parents := by
          rw [hpres.parents_eq] at hp
          exact hp
        have hkdesc : ∀ (hdp : DescOf s.deps d p), False := by
          intro hdp
          have hkdep : k ∈ s.deps p := hd1 k p hpS
          have hdk : DescOf st1.deps d k := by
            rw [hst1deps]
            exact hdp.trans (DescOf.step p k k hkdep (DescOf.refl k))
          have := (cancelJob_stops_desc fuel d k st1
            (by rw [hst1deps, hst1next]; exact hd2)
            (by rw [hst1next]; exact hdlt)
            (by rw [hst1next]; omega)
            hdk).2 hnd
          exact this hk
        rcases cancelJob_isOver_src fuel d st1 p hov with h | h
        · rcases hph k hkS p hpS h with h2 | h2
          · refine Or.inl ?_
            rw [getReturncode_some_iff] at h2 ⊢
            exact hpres.exited_stable p 0 h2
          · rcases List.mem_cons.mp h2 with h2 | h2
            · subst h2
              exact absurd (DescOf.refl p) (fun hdp => hkdesc hdp)
            · exact Or.inr h2
        · rw [hst1deps] at h
          exact absurd h (fun hdp => hkdesc hdp)

theorem foldl_erase_not_mem (pr : List Nat) :
    ∀ (w : List Nat), w.Nodup → ∀ k ∈ pr,
      k ∉ pr.foldl (fun w j => w.erase j) w := by
  induction pr with
  | nil => intro w _ k hk; exact absurd hk (List.not_mem_nil k)
  | cons j pr ih =>
    intro w hnd k hk
    rw [List.foldl_cons]
    rcases List.mem_cons.mp hk with hk | hk
    · subst hk
      intro hmem
      have := (foldl_erase_sublist pr (w.erase k)).subset hmem
      rw [List.Nodup.mem_erase_iff hnd] at this
      exact this.1 (Eq.refl k)
    · exact ih (w.erase j) (List.Nodup.erase j hnd) k hk

theorem tick_jobs (fuel : Nat) (o : Oracle) (s : Sched) :
    (tick fuel o s).jobs
      = (promoteScan o (tickMid fuel o s) (tickMid fuel o s).waiting).1.jobs
  := rfl

theorem tick_running (fuel : Nat) (o : Oracle) (s : Sched) :
    (tick fuel o s).running
      = (promoteScan o (tickMid fuel o s)
          (tickMid fuel o s).waiting).1.running := rfl

theorem tick_waiting (fuel : Nat) (o : Oracle) (s : Sched) :
    (tick fuel o s).waiting
      = (promoteScan o (tickMid fuel o s) (tickMid fuel o s).waiting).2.foldl
          (fun w j => w.erase j)
          (promoteScan o (tickMid fuel o s)
            (tickMid fuel o s).waiting).1.waiting := rfl

theorem tick_nextId (fuel : Nat) (o : Oracle) (s : Sched) :
    (tick fuel o s).nextId
      = (promoteScan o (tickMid fuel o s)
          (tickMid fuel o s).waiting).1.nextId := rfl

theorem tick_max (fuel : Nat) (o : Oracle) (s : Sched) :
    (tick fuel o s).maxProcess
      = (promoteScan o (tickMid fuel o s)
          (tickMid fuel o s).waiting).1.maxProcess := rfl

theorem tick_deps (fuel : Nat) (o : Oracle) (s : Sched) :
    (tick fuel o s).deps
      = (promoteScan o (tickMid fuel o s)
          (tickMid fuel o s).waiting).1.deps := rfl

theorem promoteScan_max (o : Oracle) :
    ∀ (ws : List Nat) (s : Sched),
      (promoteScan o s ws).1.maxProcess = s.maxProcess := by
  intro ws
  induction ws with
  | nil => intro s; rfl
  | cons j rest ih =>
    intro s
    rw [promoteScan]
    by_cases hb : s.maxProcess ≤ s.running.length
    · rw [if_pos hb]
    · rw [if_neg hb]
      by_cases hr : isReady s.jobs o.canStart j = true
      · rw [if_pos hr]
        exact ih _
      · rw [if_neg hr]
        exact ih s

theorem tick_max_eq (fuel : Nat) (o : Oracle) (s : Sched) :
    (tick fuel o s).maxProcess = s.maxProcess := by
  rw [tick_max, promoteScan_max]
  show (tickMid fuel o s).maxProcess = s.maxProcess
  exact ((reapHandle_pres fuel (reapSweep o s).2
    (reapSweep o s).1).max_eq).trans (reapSweep_spec o s).max_eq

theorem safeInv_init (maxP : Nat) : SafeInv (initSched maxP) where
  wStart := fun j hj => absurd hj (List.not_mem_nil j)
  once := fun _ => Nat.le_succ 0
  wNodup := List.nodup_nil
  wLt := fun j hj => absurd hj (List.not_mem_nil j)
  rLt := fun j hj => absurd hj (List.not_mem_nil j)
  cap := Nat.zero_le _

theorem addJob_waiting (s : Sched) (spec : JobSpec) :
    (addJob s spec).waiting = s.waiting ++ [s.nextId] := rfl

theorem addJob_running (s : Sched) (spec : JobSpec) :
    (addJob s spec).running = s.running := rfl

theorem addJob_nextId (s : Sched) (spec : JobSpec) :
    (addJob s spec).nextId = s.nextId + 1 := rfl

theorem addJob_jobs (s : Sched) (spec : JobSpec) (q : Nat) :
    (addJob s spec).jobs q
      = if q = s.nextId then initJob spec.parents spec.kind
        else s.jobs q := rfl

theorem addJob_deps (s : Sched) (spec : JobSpec) (p : Nat) :
    (addJob s spec).deps p
      = s.deps p ++ List.replicate (spec.parents.count p) s.nextId := rfl

theorem addJob_safeInv (s : Sched) (spec : JobSpec) (h : SafeInv s) :
    SafeInv (addJob s spec) where
  wStart := by
    intro j hj
    rw [addJob_waiting] at hj
    rw [addJob_jobs]
    rcases List.mem_append.mp hj with hj | hj
    · rw [if_neg (Nat.ne_of_lt (h.wLt j hj))]
      exact h.wStart j hj
    · rw [List.mem_singleton] at hj
      rw [if_pos hj]
      rfl
  once := by
    intro j
    rw [addJob_jobs]
    by_cases hj : j = s.nextId
    · rw [if_pos hj]
      exact Nat.le_succ 0
    · rw [if_neg hj]
      exact h.once j
  wNodup := by
    rw [addJob_waiting]
    rw [List.nodup_append]
    refine ⟨h.wNodup, List.nodup_singleton _, ?_⟩
    intro a ha hb
    rw [List.mem_singleton] at hb
    rw [hb] at ha
    exact absurd (h.wLt _ ha) (Nat.lt_irrefl _)
  wLt := by
    intro j hj
    rw [addJob_waiting] at hj
    rw [addJob_nextId]
    rcases List.mem_append.mp hj with hj | hj
    · exact Nat.lt_succ_of_lt (h.wLt j hj)
    · rw [List.mem_singleton] at hj
      subst hj
      exact Nat.lt_succ_self _
  rLt := by
    intro j hj
    rw [addJob_running] at hj
    rw [addJob_nextId]
    exact Nat.lt_succ_of_lt (h.rLt j hj)
  cap := h.cap

theorem tick_safeInv (fuel : Nat) (o : Oracle) (s : Sched)
    (h : SafeInv s) : SafeInv (tick fuel o s) := by
  have sw := reapSweep_spec o s
  have hp := reapHandle_pres fuel (reapSweep o s).2 (reapSweep o s).1
  have hMwait : (tickMid fuel o s).waiting.Sublist s.waiting := by
    have := hp.waiting_sub
    rw [sw.waiting_eq] at this
    exact this
  have hMrun : (tickMid fuel o s).running.Sublist s.running := by
    have := hp.running_sub
    rw [sw.running_eq] at this
    exact this
  have hMnext : (tickMid fuel o s).nextId = s.nextId :=
    hp.nextId_eq.trans sw.nextId_eq
  have hMmax : (tickMid fuel o s).maxProcess = s.maxProcess :=
    hp.max_eq.trans sw.max_eq
  have hMcount : ∀ q, ((tickMid fuel o s).jobs q).startCount
      = (s.jobs q).startCount :=
    fun q => (hp.count_eq q).trans (sw.count_eq q)
  have hMnd : (tickMid fuel o s).waiting.Nodup :=
    List.Nodup.sublist hMwait h.wNodup
  obtain ⟨P, Psub, Pnd, Pcap⟩ :=
    promoteScan_spec o (tickMid fuel o s).waiting (tickMid fuel o s) hMnd
  have hPin : ∀ q ∈ (promoteScan o (tickMid fuel o s)
      (tickMid fuel o s).waiting).2, q ∈ s.waiting :=
    fun q hq => hMwait.subset (Psub q hq)
  constructor
  case wStart =>
    intro j hj
    rw [tick_waiting] at hj
    have hjw : j ∈ (tickMid fuel o s).waiting := by
      have := (foldl_erase_sublist _ _).subset hj
      rw [P.waiting_eq] at this
      exact this
    have hnotp : j ∉ (promoteScan o (tickMid fuel o s)
        (tickMid fuel o s).waiting).2 := by
      intro hmem
      refine foldl_erase_not_mem _ _ ?_ j hmem hj
      rw [P.waiting_eq]
      exact hMnd
    rw [tick_jobs, P.untouched j hnotp, hMcount]
    exact h.wStart j (hMwait.subset hjw)
  case once =>
    intro j
    rw [tick_jobs]
    by_cases hjp : j ∈ (promoteScan o (tickMid fuel o s)
        (tickMid fuel o s).waiting).2
    · rw [P.started j hjp]
      show ((tickMid fuel o s).jobs j).startCount + 1 ≤ 1
      rw [hMcount, h.wStart j (hPin j hjp)]
    · rw [P.untouched j hjp, hMcount]
      exact h.once j
  case wNodup =>
    rw [tick_waiting]
    refine List.Nodup.sublist (foldl_erase_sublist _ _) ?_
    rw [P.waiting_eq]
    exact hMnd
  case wLt =>
    intro j hj
    rw [tick_waiting] at hj
    have hjw : j ∈ (tickMid fuel o s).waiting := by
      have := (foldl_erase_sublist _ _).subset hj
      rw [P.waiting_eq] at this
      exact this
    rw [tick_nextId, P.nextId_eq, hMnext]
    exact h.wLt j (hMwait.subset hjw)
  case rLt =>
    intro j hj
    rw [tick_running, P.running_eq] at hj
    rw [tick_nextId, P.nextId_eq, hMnext]
    rcases List.mem_append.mp hj with hj | hj
    · exact h.rLt j (hMrun.subset hj)
    · exact h.wLt j (hPin j hj)
  case cap =>
    rw [tick_running, tick_max, promoteScan_max]
    have hMcap : (tickMid fuel o s).running.length
        ≤ (tickMid fuel o s).maxProcess := by
      rw [hMmax]
      exact Nat.le_trans hMrun.length_le h.cap
    have := Pcap hMcap
    rw [hMmax] at this ⊢
    exact this

theorem reachable_safeInv (maxP : Nat) (s : Sched)
    (h : Reachable maxP s) : SafeInv s ∧ s.maxProcess = maxP := by
  induction h with
  | init => exact ⟨safeInv_init maxP, rfl⟩
  | add s spec _ ih => exact ⟨addJob_safeInv s spec ih.1, ih.2⟩
  | tick s o _ ih =>
    exact ⟨tick_safeInv _ o s ih.1, (tick_max_eq _ o s).trans ih.2⟩

theorem tick_waveInv (o : Oracle) (s : Sched) (h : WaveInv s) :
    WaveInv (tick (s.nextId + 1) o s) := by
  have sw := reapSweep_spec o s
  set fuel := s.nextId + 1 with hfuel
  have hp := reapHandle_pres fuel (reapSweep o s).2 (reapSweep o s).1
  set m := tickMid fuel o s with hm
  have hMwait : m.waiting.Sublist s.waiting := by
    have := hp.waiting_sub
    rw [sw.waiting_eq] at this
    exact this
  have hMrun : m.running.Sublist s.running := by
    have := hp.running_sub
    rw [sw.running_eq] at this
    exact this
  have hMnext : m.nextId = s.nextId := hp.nextId_eq.trans sw.nextId_eq
  have hMcount : ∀ q, (m.jobs q).startCount = (s.jobs q).startCount :=
    fun q => (hp.count_eq q).trans (sw.count_eq q)
  have hMpar : ∀ q, (m.jobs q).parents = (s.jobs q).parents :=
    fun q => (hp.parents_eq q).trans (sw.parents_eq q)
  have hMdeps : m.deps = s.deps := hp.deps_eq.trans sw.deps_eq
  have hMmono : ∀ q, (s.jobs q).isOver = true → (m.jobs q).isOver = true :=
    fun q hq => hp.over_mono q (sw.over_mono q hq)
  have hMstable : ∀ q c, (s.jobs q).proc = .exited c →
      (m.jobs q).proc = .exited c :=
    fun q c hq => hp.exited_stable q c (sw.exited_stable q c hq)
  have hMnd : m.waiting.Nodup := List.Nodup.sublist hMwait h.wNodup
  -- f2 is restored by the cancellations of the second reap loop
  have hf2m : ∀ k ∈ m.waiting, ∀ p ∈ (m.jobs k).parents,
      (m.jobs p).isOver = true → getReturncode (m.jobs p) = some 0 := by
    refine reapHandle_f2 fuel (reapSweep o s).2 (reapSweep o s).1
      ?_ ?_ ?_ ?_ ?_ ?_
    · intro j p hp2
      rw [sw.parents_eq] at hp2
      rw [sw.deps_eq]
      exact h.d1 j p hp2
    · intro p c hc
      rw [sw.deps_eq] at hc
      rw [sw.nextId_eq]
      exact h.d2 p c hc
    · rw [sw.waiting_eq]
      exact h.wNodup
    · intro d hd
      rw [sw.nextId_eq]
      rcases sw.dead_src d hd with hh | hh
      · exact absurd hh (List.not_mem_nil d)
      · exact h.rLt d hh
    · rw [sw.nextId_eq, hfuel]
      exact Nat.le_succ _
    · intro k hk p hp2 hov
      rw [sw.waiting_eq] at hk
      rw [sw.parents_eq] at hp2
      rcases sw.over_src p hov with hh | hh
      · refine Or.inl ?_
        have := h.f2 k hk p hp2 hh
        rw [getReturncode_some_iff] at this ⊢
        exact sw.exited_stable p 0 this
      · exact Or.inr hh
  have hf1m : ∀ j, 1 ≤ (m.jobs j).startCount →
      ∀ p ∈ (m.jobs j).parents,
      (m.jobs p).isOver = true ∧ getReturncode (m.jobs p) = some 0 := by
    intro j hc p hp2
    rw [hMcount] at hc
    rw [hMpar] at hp2
    obtain ⟨hov, hcode⟩ := h.f1 j hc p hp2
    refine ⟨hMmono p hov, ?_⟩
    rw [getReturncode_some_iff] at hcode ⊢
    exact hMstable p 0 hcode
  obtain ⟨P, Psub, Pnd, Pcap⟩ := promoteScan_spec o m.waiting m hMnd
  have hPw : (promoteScan o m m.waiting).1.waiting = m.waiting :=
    P.waiting_eq
  have hTw : (tick fuel o s).waiting.Sublist m.waiting := by
    rw [tick_waiting]
    refine List.Sublist.trans (foldl_erase_sublist _ _) ?_
    rw [hPw]
  have hTnext : (tick fuel o s).nextId = s.nextId := by
    rw [tick_nextId, P.nextId_eq, hMnext]
  constructor
  case d1 =>
    intro j p hp2
    rw [tick_jobs, P.parents_pres, hMpar] at hp2
    rw [tick_deps, P.deps_eq, hMdeps]
    exact h.d1 j p hp2
  case d2 =>
    intro p c hc
    rw [tick_deps, P.deps_eq, hMdeps] at hc
    rw [hTnext]
    exact h.d2 p c hc
  case wNodup =>
    exact List.Nodup.sublist hTw hMnd
  case wLt =>
    intro j hj
    rw [hTnext]
    exact h.wLt j (hMwait.subset (hTw.subset hj))
  case rLt =>
    intro j hj
    rw [tick_running, P.running_eq] at hj
    rw [hTnext]
    rcases List.mem_append.mp hj with hj | hj
    · exact h.rLt j (hMrun.subset hj)
    · exact h.wLt j (hMwait.subset (Psub j hj))
  case f1 =>
    intro j hc p hp2
    rw [tick_jobs] at hc hp2 ⊢
    rw [P.parents_pres] at hp2
    by_cases hjp : j ∈ (promoteScan o m m.waiting).2
    · have hov : (m.jobs p).isOver = true :=
        P.ready_parents j hjp p hp2
      have hcode : getReturncode (m.jobs p) = some 0 :=
        hf2m j (Psub j hjp) p hp2 hov
      have hpnot : p ∉ (promoteScan o m m.waiting).2 := by
        intro hmem
        have := P.ready_over p hmem
        rw [hov] at this
        exact absurd this (by simp)
      rw [P.untouched p hpnot]
      exact ⟨hov, hcode⟩
    · rw [P.untouched j hjp] at hc
      obtain ⟨hov, hcode⟩ := hf1m j hc p hp2
      have hpnot : p ∉ (promoteScan o m m.waiting).2 := by
        intro hmem
        have := P.ready_over p hmem
        rw [hov] at this
        exact absurd this (by simp)
      rw [P.untouched p hpnot]
      exact ⟨hov, hcode⟩
  case f2 =>
    intro k hk p hp2 hov
    have hkm : k ∈ m.waiting := hTw.subset hk
    rw [tick_jobs] at hp2 hov ⊢
    rw [P.parents_pres] at hp2
    rw [P.over_pres] at hov
    have hcode := hf2m k hkm p hp2 hov
    have hpnot : p ∉ (promoteScan o m m.waiting).2 := by
      intro hmem
      have := P.ready_over p hmem
      rw [hov] at this
      exact absurd this (by simp)
    rw [P.untouched p hpnot]
    exact hcode

theorem addInv_init (maxP : Nat) : AddInv (initSched maxP) where
  d1 := fun j p hp => absurd hp (List.not_mem_nil p)
  d2 := fun p c hc => absurd hc (List.not_mem_nil c)
  wNodup := List.nodup_nil
  wLt := fun j hj => absurd hj (List.not_mem_nil j)
  rLt := fun j hj => absurd hj (List.not_mem_nil j)
  notOver := fun _ => rfl
  count0 := fun _ => rfl

theorem addJob_addInv (s : Sched) (spec : JobSpec)
    (hw : ∀ p ∈ spec.parents, p < s.nextId) (h : AddInv s) :
    AddInv (addJob s spec) where
  d1 := by
    intro j p hp
    rw [addJob_jobs] at hp
    rw [addJob_deps]
    by_cases hj : j = s.nextId
    · rw [if_pos hj] at hp
      refine List.mem_append.mpr (Or.inr ?_)
      rw [hj]
      refine List.mem_replicate.mpr ⟨?_, rfl⟩
      intro hzero
      rw [List.count_eq_zero] at hzero
      exact hzero hp
    · rw [if_neg hj] at hp
      exact List.mem_append.mpr (Or.inl (h.d1 j p hp))
  d2 := by
    intro p c hc
    rw [addJob_deps] at hc
    rw [addJob_nextId]
    rcases List.mem_append.mp hc with hc | hc
    · obtain ⟨h1, h2⟩ := h.d2 p c hc
      exact ⟨h1, Nat.lt_succ_of_lt h2⟩
    · obtain ⟨hcount, hceq⟩ := List.mem_replicate.mp hc
      subst hceq
      have hmem : p ∈ spec.parents := by
        by_contra hnot
        exact hcount (List.count_eq_zero.mpr hnot)
      exact ⟨hw p hmem, Nat.lt_succ_self _⟩
  wNodup := by
    rw [addJob_waiting]
    rw [List.nodup_append]
    refine ⟨h.wNodup, List.nodup_singleton _, ?_⟩
    intro a ha hb
    rw [List.mem_singleton] at hb
    rw [hb] at ha
    exact absurd (h.wLt _ ha) (Nat.lt_irrefl _)
  wLt := by
    intro j hj
    rw [addJob_waiting] at hj
    rw [addJob_nextId]
    rcases List.mem_append.mp hj with hj | hj
    · exact Nat.lt_succ_of_lt (h.wLt j hj)
    · rw [List.mem_singleton] at hj
      rw [hj]
      exact Nat.lt_succ_self _
  rLt := by
    intro j hj
    rw [addJob_running] at hj
    rw [addJob_nextId]
    exact Nat.lt_succ_of_lt (h.rLt j hj)
  notOver := by
    intro j
    rw [addJob_jobs]
    by_cases hj : j = s.nextId
    · rw [if_pos hj]
      rfl
    · rw [if_neg hj]
      exact h.notOver j
  count0 := by
    intro j
    rw [addJob_jobs]
    by_cases hj : j = s.nextId
    · rw [if_pos hj]
      rfl
    · rw [if_neg hj]
      exact h.count0 j

theorem addInv_waveInv (s : Sched) (h : AddInv s) : WaveInv s where
  d1 := h.d1
  d2 := h.d2
  wNodup := h.wNodup
  wLt := h.wLt
  rLt := h.rLt
  f1 := by
    intro j hc
    rw [h.count0 j] at hc
    exact absurd hc (by omega)
  f2 := by
    intro k _ p _ hov
    rw [h.notOver p] at hov
    exact absurd hov (by simp)

theorem addFold_inv : ∀ (specs : List JobSpec) (s : Sched),
    AddInv s → SpecsWf s.nextId specs →
    AddInv (specs.foldl addJob s) := by
  intro specs
  induction specs with
  | nil => intro s h _; exact h
  | cons spec rest ih =>
    intro s h hwf
    rw [List.foldl_cons]
    refine ih (addJob s spec) (addJob_addInv s spec hwf.1 h) ?_
    rw [addJob_nextId]
    exact hwf.2

theorem tickFold_wave : ∀ (os : List Oracle) (s : Sched),
    WaveInv s →
    WaveInv (os.foldl (fun st o => tick (st.nextId + 1) o st) s) := by
  intro os
  induction os with
  | nil => intro s h; exact h
  | cons o rest ih =>
    intro s h
    rw [List.foldl_cons]
    exact ih _ (tick_waveInv o s h)

/-- C1 counterexample. Job 0 finished with return code 1 (non-zero) and
was cancelled, yet its child job 1 — submitted via `add_job` after the
failure — is then started by the scheduler (`startCount = 1`):
`cancel_job` only cancels dependants registered at failure time, and
`is_ready` checks the parents' `is_over` flags but never their return
codes. -/
theorem late_child_starts_after_parent_failure :
    getReturncode ((runTrace 8 evsLateChild).jobs 0) = some 1
    ∧ some (1 : Int) ≠ some (0 : Int)
    ∧ ((runTrace 8 evsLateChild).jobs 0).isOver = true
    ∧ ((runTrace 8 evsLateChild).jobs 1).parents = [0]
    ∧ ((runTrace 8 evsLateChild).jobs 1).startCount = 1 :=
  ⟨rfl, by decide, rfl, rfl, rfl⟩

/-- C1 amended. For a single submission wave — every `add_job` happens
before the scheduler loop runs, with parents submitted before their
children — every job the scheduler ever starts has all parents finished
(`is_over`) with return code 0. -/
theorem submission_wave_failed_parent_exclusion (maxP : Nat)
    (specs : List JobSpec) (os : List Oracle) (hwf : SpecsWf 0 specs) :
    ∀ j p, p ∈ ((tickPhase os (addPhase maxP specs)).jobs j).parents →
      1 ≤ ((tickPhase os (addPhase maxP specs)).jobs j).startCount →
      ((tickPhase os (addPhase maxP specs)).jobs p).isOver = true
      ∧ getReturncode ((tickPhase os (addPhase maxP specs)).jobs p)
          = some 0 := by
  have hA : AddInv (addPhase maxP specs) :=
    addFold_inv specs (initSched maxP) (addInv_init maxP) hwf
  have hW := tickFold_wave os (addPhase maxP specs) (addInv_waveInv _ hA)
  exact fun j p hp hc => hW.f1 j hc p hp

/-- Concrete instantiation of `submission_wave_failed_parent_exclusion`:
in the two-job wave the child starts and its parent indeed finished with
exit code 0. -/
theorem submission_wave_failed_parent_exclusion_witness :
    SpecsWf 0 specsWave
    ∧ 0 ∈ ((tickPhase osWave (addPhase 8 specsWave)).jobs 1).parents
    ∧ 1 ≤ ((tickPhase osWave (addPhase 8 specsWave)).jobs 1).startCount
    ∧ ((tickPhase osWave (addPhase 8 specsWave)).jobs 0).isOver = true
    ∧ getReturncode ((tickPhase osWave (addPhase 8 specsWave)).jobs 0)
        = some 0 :=
  ⟨by decide, by decide, by decide,
   (submission_wave_failed_parent_exclusion 8 specsWave osWave (by decide)
     1 0 (by decide) (by decide)).1,
   (submission_wave_failed_parent_exclusion 8 specsWave osWave (by decide)
     1 0 (by decide) (by decide)).2⟩

/-- C2 counterexample. The waiting child (id 1) is cancelled as a
transitive descendant of the failed job 0: afterwards `is_over` is true,
but `get_returncode()` is `None` — its worker never started, so there is
no non-zero sentinel. -/
theorem cancelled_waiting_job_returncode_none :
    ((runTrace 8 evsCancelWave).jobs 1).isOver = true
    ∧ getReturncode ((runTrace 8 evsCancelWave).jobs 1) = none
    ∧ getReturncode ((runTrace 8 evsCancelWave).jobs 0) = some 2
    ∧ (runTrace 8 evsCancelWave).waiting = []
    ∧ ((runTrace 8 evsCancelWave).jobs 1).startCount = 0 :=
  ⟨rfl, rfl, rfl, rfl, rfl⟩

/-- C2 amended. `cancel_job` always sets `is_over` on the cancelled job;
its return code becomes the non-zero kill code -9 if its worker was
alive, stays `None` if the worker never started, keeps a previous exit
code otherwise; and with increasing registered edges and enough fuel
every registered transitive dependant is marked over as well. -/
theorem cancel_job_terminal (fuel : Nat) (s : Sched) (j : Nat)
    (hfuel : 1 ≤ fuel) :
    ((cancelJob fuel j s).jobs j).isOver = true
    ∧ ((s.jobs j).proc = .runningProc →
        getReturncode ((cancelJob fuel j s).jobs j) = some (-9)
        ∧ ((-9 : Int) ≠ 0))
    ∧ (((s.jobs j).proc = .created ∨ (s.jobs j).proc = .noProc) →
        getReturncode ((cancelJob fuel j s).jobs j) = none)
    ∧ (∀ c, (s.jobs j).proc = .exited c →
        getReturncode ((cancelJob fuel j s).jobs j) = some c)
    ∧ (∀ k, DescOf s.deps j k →
        (∀ p c, c ∈ s.deps p → p < c ∧ c < s.nextId) →
        j < s.nextId → s.nextId ≤ j + fuel →
        ((cancelJob fuel j s).jobs k).isOver = true) := by
  have hroot := cancelJob_root fuel j s hfuel
  refine ⟨by rw [hroot]; exact stopJob_isOver _, ?_, ?_, ?_, ?_⟩
  · intro hpr
    rw [hroot]
    refine ⟨?_, by decide⟩
    simp [stopJob, getReturncode, hpr]
  · intro hpr
    rw [hroot]
    rcases hpr with hpr | hpr <;> simp [stopJob, getReturncode, hpr]
  · intro c hpr
    rw [hroot]
    simp [stopJob, getReturncode, hpr]
  · intro k hdesc hedges hj hf
    exact (cancelJob_stops_desc fuel j k s hedges hj hf hdesc).1

/-- Concrete instantiation of `cancel_job_terminal` on a waiting
never-started job. -/
theorem cancel_job_terminal_witness :
    (1 : Nat) ≤ 3
    ∧ ((cancelJob 3 1 (runTrace 8 evsPreCancel)).jobs 1).isOver = true
    ∧ getReturncode ((cancelJob 3 1 (runTrace 8 evsPreCancel)).jobs 1)
        = none :=
  ⟨by decide,
   (cancel_job_terminal 3 (runTrace 8 evsPreCancel) 1 (by decide)).1,
   (cancel_job_terminal 3 (runTrace 8 evsPreCancel) 1 (by decide)).2.2.1
     (Or.inl (by decide))⟩

/-- C3. In every reachable scheduler state the running list respects the
cap, and the promotion scan stops adding jobs as soon as
`len(running)` has reached `max_process`. -/
theorem parallelism_cap (maxP : Nat) (s : Sched) (hpos : 0 < maxP)
    (h : Reachable maxP s) :
    s.running.length ≤ maxP
    ∧ (∀ (o : Oracle) (st : Sched) (ws : List Nat),
        st.maxProcess ≤ st.running.length →
        promoteScan o st ws = (st, [])) := by
  obtain ⟨hi, hmax⟩ := reachable_safeInv maxP s h
  refine ⟨?_, fun o st ws hfull => promoteScan_full o st ws hfull⟩
  rw [← hmax]
  exact hi.cap

/-- Concrete instantiation of `parallelism_cap` after one tick with two
eligible jobs and capacity 1. -/
theorem parallelism_cap_witness :
    0 < 1 ∧ capDemo.running.length ≤ 1 :=
  ⟨by decide,
   (parallelism_cap 1 capDemo (by decide)
     (Reachable.tick _ oracleAll (Reachable.add _ _
       (Reachable.add _ _ (Reachable.init))))).1⟩

/-- C10. The scheduler calls `start()` at most once on any job, and
`is_ready` is false for any job whose `is_over` flag is already set, so
no finished, cancelled or running job is ever promoted again. -/
theorem start_at_most_once (maxP : Nat) (s : Sched)
    (h : Reachable maxP s) :
    (∀ j, (s.jobs j).startCount ≤ 1)
    ∧ (∀ (jobs : Nat → JobState) (cs : Nat → Bool) (j : Nat),
        (jobs j).isOver = true → isReady jobs cs j = false) :=
  ⟨(reachable_safeInv maxP s h).1.once,
   fun jobs cs j hov => isReady_of_over jobs cs j hov⟩

/-- Concrete instantiation of `start_at_most_once`. -/
theorem start_at_most_once_witness :
    (onceDemo.jobs 0).startCount ≤ 1 :=
  (start_at_most_once 2 onceDemo
    (Reachable.tick _ oracleAll (Reachable.tick _ oracleAll
      (Reachable.add _ _ (Reachable.init))))).1 0

end Seqdd
